import Mathlib

/-!
# Simple memory allocator: block chain, fit strategies, split and coalesce

Shallow embedding of `src/memory_allcator.c`.

* The chain that hangs off the global `head` is a `List MemoryBlock` in chain
  order; the `next` field of a record is its successor in the list and `NULL`
  is the end of the list.  A `MemoryBlock*` into the chain is the position of
  the record in the list (`Nat`), a possibly-`NULL` pointer is an `Option Nat`.
* `size_t` is a natural number below `SIZE_MOD = 2 ^ 64`; every `size_t`
  addition and subtraction of the source is taken modulo `SIZE_MOD`
  (`addU`, `subU`).
* `is_free` only ever holds `0` or `1` and is tested for truth, so it is a
  `Bool` (`true` is `1`).
* Where the records sit inside `memory_pool` (the pointer cast of
  `split_MemoryBlock`) is not part of this model: the records of the chain are
  distinct values.  The two coincide as long as `split_MemoryBlock` writes a
  record of its own; the section on linked records embeds the same functions
  with pointers as offsets into `memory_pool` for the calls where it does not.
* Console output is dropped; the outcome that selects the message is returned,
  and `print_stats` returns the totals it prints.
-/

namespace MemoryAllocator

/-! ## Data model -/

/-- Capacity of the pool: `#define MEMORY_SIZE 640`. -/
def MEMORY_SIZE : Nat := 640

/-- Metadata cost per block: `#define BLOCK_SIZE 1`. -/
def BLOCK_SIZE : Nat := 1

/-- Number of values of `size_t`. -/
def SIZE_MOD : Nat := 2 ^ 64

/-- Largest value of `size_t`. -/
def SIZE_MAX : Nat := SIZE_MOD - 1

/-- Addition of two `size_t` values. -/
def addU (a b : Nat) : Nat := (a + b) % SIZE_MOD

/-- Subtraction of two `size_t` values. -/
def subU (a b : Nat) : Nat := (a + SIZE_MOD - b % SIZE_MOD) % SIZE_MOD

/-- One record of the chain: `struct MemoryBlock` without its `next` link. -/
structure MemoryBlock where
  start_addr : Nat
  size : Nat
  is_free : Bool
deriving DecidableEq, Repr

/-- The body of `initialize_memory`: one free block of `MEMORY_SIZE - BLOCK_SIZE`
at address 0. -/
def initialize_memory : List MemoryBlock :=
  [{ start_addr := 0, size := MEMORY_SIZE - BLOCK_SIZE, is_free := true }]

/-! ## Search strategies -/

/-- The test shared by the three searches:
`current->is_free && current->size >= size + BLOCK_SIZE`. -/
def fits (current : MemoryBlock) (size : Nat) : Bool :=
  current.is_free && decide (current.size ≥ addU size BLOCK_SIZE)

/-- The `while` loop of `allocate_first_fit`; `i` is the position of `current`. -/
def first_fit_loop (size : Nat) : List MemoryBlock → Nat → Option Nat
  | [], _ => none
  | current :: rest, i =>
    if fits current size then some i else first_fit_loop size rest (i + 1)

/-- Assignment `p->is_free = v`. -/
def set_is_free (head : List MemoryBlock) (p : Nat) (v : Bool) : List MemoryBlock :=
  match head[p]? with
  | none => head
  | some b => head.set p { b with is_free := v }

/-- Function `allocate_first_fit`: the block found (already marked allocated)
and the chain after the call. -/
def allocate_first_fit (head : List MemoryBlock) (size : Nat) :
    Option Nat × List MemoryBlock :=
  match first_fit_loop size head 0 with
  | none => (none, head)
  | some current => (some current, set_is_free head current false)

/-- One iteration of the loop of `allocate_best_fit`: `best` is the pointer
together with the record it points to. -/
def best_fit_step (size : Nat) (best : Option (Nat × MemoryBlock))
    (i : Nat) (current : MemoryBlock) : Option (Nat × MemoryBlock) :=
  if fits current size then
    match best with
    | none => some (i, current)
    | some (_, b) => if current.size < b.size then some (i, current) else best
  else best

/-- The `while` loop of `allocate_best_fit`. -/
def best_fit_loop (size : Nat) :
    List MemoryBlock → Nat → Option (Nat × MemoryBlock) → Option (Nat × MemoryBlock)
  | [], _, best => best
  | current :: rest, i, best =>
    best_fit_loop size rest (i + 1) (best_fit_step size best i current)

/-- Function `allocate_best_fit`: the position of the block found. -/
def allocate_best_fit (head : List MemoryBlock) (size : Nat) : Option Nat :=
  (best_fit_loop size head 0 none).map Prod.fst

/-- One iteration of the loop of `allocate_worst_fit`. -/
def worst_fit_step (size : Nat) (worst : Option (Nat × MemoryBlock))
    (i : Nat) (current : MemoryBlock) : Option (Nat × MemoryBlock) :=
  if fits current size then
    match worst with
    | none => some (i, current)
    | some (_, w) => if current.size > w.size then some (i, current) else worst
  else worst

/-- The `while` loop of `allocate_worst_fit`. -/
def worst_fit_loop (size : Nat) :
    List MemoryBlock → Nat → Option (Nat × MemoryBlock) → Option (Nat × MemoryBlock)
  | [], _, worst => worst
  | current :: rest, i, worst =>
    worst_fit_loop size rest (i + 1) (worst_fit_step size worst i current)

/-- Function `allocate_worst_fit`: the position of the block found. -/
def allocate_worst_fit (head : List MemoryBlock) (size : Nat) : Option Nat :=
  (worst_fit_loop size head 0 none).map Prod.fst

/-! ## Allocation -/

/-- Function `split_MemoryBlock`: a new free record is linked after `target`,
which shrinks to `size`. -/
def split_MemoryBlock (head : List MemoryBlock) (target : Nat) (size : Nat) :
    List MemoryBlock :=
  match head[target]? with
  | none => head
  | some t =>
    let new_block : MemoryBlock :=
      { start_addr := addU t.start_addr size
        size := subU (subU t.size size) BLOCK_SIZE
        is_free := true }
    head.take target ++ { t with size := size } :: new_block :: head.drop (target + 1)

/-- What `allocate_memory` hands back: its return value, the start address it
reports on success, and the chain after the call. -/
structure AllocResult where
  ret : Int
  addr : Option Nat
  head : List MemoryBlock
deriving DecidableEq, Repr

/-- The `switch` of `allocate_memory`: the target and the chain after the search. -/
def select_target (head : List MemoryBlock) (size : Nat) (algorithm : Int) :
    Option Nat × List MemoryBlock :=
  if algorithm = 1 then allocate_first_fit head size
  else if algorithm = 2 then (allocate_best_fit head size, head)
  else if algorithm = 3 then (allocate_worst_fit head size, head)
  else (none, head)

/-- Function `allocate_memory`. -/
def allocate_memory (head : List MemoryBlock) (size : Nat) (algorithm : Int) :
    AllocResult :=
  if size ≤ 0 then ⟨-1, none, head⟩
  else
    match select_target head size algorithm with
    | (none, head1) => ⟨-1, none, head1⟩
    | (some target, head1) =>
      match head1[target]? with
      | none => ⟨-1, none, head1⟩
      | some t =>
        let head2 :=
          if subU (subU t.size size) BLOCK_SIZE > BLOCK_SIZE then
            split_MemoryBlock head1 target size
          else head1
        ⟨0, some t.start_addr, set_is_free head2 target false⟩

/-! ## Release -/

/-- Which of the three messages `free_memory` prints. -/
inductive FreeResult where
  | not_found
  | already_free
  | freed
deriving DecidableEq, Repr

/-- The search loop of `free_memory`; `i` is the position of `current`
(`prev` is the position before it, `NULL` when `i = 0`). -/
def find_loop (start_addr : Nat) : List MemoryBlock → Nat → Option Nat
  | [], _ => none
  | current :: rest, i =>
    if current.start_addr ≠ start_addr then find_loop start_addr rest (i + 1)
    else some i

/-- The merge statement pair of `free_memory`:
`p->size = p->size + q->size + BLOCK_SIZE; p->next = q->next` with `q = p->next`. -/
def absorb_next (head : List MemoryBlock) (p : Nat) : List MemoryBlock :=
  match head[p]?, head[p + 1]? with
  | some a, some b =>
    head.take p ++ { a with size := addU (addU a.size b.size) BLOCK_SIZE } :: head.drop (p + 2)
  | _, _ => head

/-- Truth of `q && q->is_free` for a possibly-`NULL` pointer `q`. -/
def is_free_at (head : List MemoryBlock) (q : Option Nat) : Bool :=
  match q with
  | none => false
  | some i =>
    match head[i]? with
    | none => false
    | some b => b.is_free

/-- Function `free_memory`. -/
def free_memory (head : List MemoryBlock) (start_addr : Nat) :
    FreeResult × List MemoryBlock :=
  match find_loop start_addr head 0 with
  | none => (FreeResult.not_found, head)
  | some current =>
    if is_free_at head (some current) then (FreeResult.already_free, head)
    else
      let prev : Option Nat := if current = 0 then none else some (current - 1)
      let head1 := set_is_free head current true
      let merged := is_free_at head1 prev
      let head2 := if merged then absorb_next head1 (current - 1) else head1
      let current2 := if merged then current - 1 else current
      let head3 :=
        if is_free_at head2 (some (current2 + 1)) then absorb_next head2 current2
        else head2
      (FreeResult.freed, head3)


/-! ## Specification vocabulary -/

/-- Loop invariant of `allocate_best_fit` after the blocks `pre` have been
visited: `best` is `NULL` when no visited block fits, otherwise it points to a
fitting block of least size, the earliest such. -/
def BestInv (size : Nat) (pre : List MemoryBlock) :
    Option (Nat × MemoryBlock) → Prop
  | none => ∀ b ∈ pre, fits b size = false
  | some (k, t) =>
    pre[k]? = some t ∧ fits t size = true ∧
    (∀ (j : Nat) (b : MemoryBlock), pre[j]? = some b → fits b size = true → t.size ≤ b.size) ∧
    (∀ (j : Nat) (b : MemoryBlock), j < k → pre[j]? = some b → fits b size = true → t.size < b.size)

/-- Loop invariant of `allocate_worst_fit`, the mirror image of `BestInv`. -/
def WorstInv (size : Nat) (pre : List MemoryBlock) :
    Option (Nat × MemoryBlock) → Prop
  | none => ∀ b ∈ pre, fits b size = false
  | some (k, t) =>
    pre[k]? = some t ∧ fits t size = true ∧
    (∀ (j : Nat) (b : MemoryBlock), pre[j]? = some b → fits b size = true → b.size ≤ t.size) ∧
    (∀ (j : Nat) (b : MemoryBlock), j < k → pre[j]? = some b → fits b size = true → b.size < t.size)

/-- A chain with ties, used to exercise the searches: free blocks of sizes
10, 5, 5, an allocated block of size 5 and a free block of size 10. -/
def demo_chain : List MemoryBlock :=
  [{ start_addr := 0, size := 10, is_free := true },
   { start_addr := 11, size := 5, is_free := true },
   { start_addr := 17, size := 5, is_free := true },
   { start_addr := 23, size := 5, is_free := false },
   { start_addr := 29, size := 10, is_free := true }]

/-- The block that results when `a` absorbs its successor `b`
(`a->size = a->size + b->size + BLOCK_SIZE`). -/
def join (a b : MemoryBlock) : MemoryBlock :=
  { a with size := addU (addU a.size b.size) BLOCK_SIZE }

/-- The blocks that stand in the place of the target `t` after a successful
`allocate_memory` of `size`: the target alone, or the shrunk target and the
new free block when the split test passes. -/
def alloc_blocks (t : MemoryBlock) (size : Nat) : List MemoryBlock :=
  if subU (subU t.size size) BLOCK_SIZE > BLOCK_SIZE then
    [{ start_addr := t.start_addr, size := size, is_free := false },
     { start_addr := addU t.start_addr size
       size := subU (subU t.size size) BLOCK_SIZE
       is_free := true }]
  else [{ t with is_free := false }]

/-- The forward merge of `free_memory`: with `cur` standing between `pre` and
`post`, `cur` absorbs the first block of `post` when that one is free. -/
def merge_forward (pre : List MemoryBlock) (cur : MemoryBlock) :
    List MemoryBlock → List MemoryBlock
  | [] => pre ++ [cur]
  | n :: rest =>
    if n.is_free then pre ++ join cur n :: rest else pre ++ cur :: n :: rest

/-- The chain after a successful `free_memory` of the block `c` that stands
between `pre` and `post`: `c` is marked free, absorbed by the block before it
when that one is free, and the result absorbs the block after it when that
one is free. -/
def coalesce (pre : List MemoryBlock) (c : MemoryBlock) (post : List MemoryBlock) :
    List MemoryBlock :=
  match pre.getLast? with
  | none => merge_forward pre { c with is_free := true } post
  | some p =>
    if p.is_free then merge_forward pre.dropLast (join p { c with is_free := true }) post
    else merge_forward pre { c with is_free := true } post

/-- A relation between consecutive blocks is decided along the chain by one
traversal. -/
def chain_decidable {R : MemoryBlock → MemoryBlock → Prop} [DecidableRel R] :
    (l : List MemoryBlock) → Decidable (List.Chain' R l)
  | [] => isTrue List.chain'_nil
  | [a] => isTrue (List.chain'_singleton a)
  | a :: b :: l =>
    have : Decidable (List.Chain' R (b :: l)) := chain_decidable (b :: l)
    decidable_of_iff (R a b ∧ List.Chain' R (b :: l)) List.chain'_cons.symm

/-- No two consecutive blocks of the chain are both free. -/
def NoAdjacentFree (head : List MemoryBlock) : Prop :=
  List.Chain' (fun a b => ¬(a.is_free = true ∧ b.is_free = true)) head

instance (head : List MemoryBlock) : Decidable (NoAdjacentFree head) :=
  chain_decidable head

/-- One call of the interface used by `main`. -/
inductive Call where
  | allocate (size : Nat) (algorithm : Int)
  | free (start_addr : Nat)
deriving DecidableEq, Repr

/-- The arguments of a call are values of their C types (`size_t`, `int`). -/
def Call.in_range : Call → Bool
  | Call.allocate size algorithm =>
    decide (size < SIZE_MOD) && decide (-(2 : Int) ^ 31 ≤ algorithm) &&
      decide (algorithm < (2 : Int) ^ 31)
  | Call.free start_addr => decide (start_addr < SIZE_MOD)

/-- The call is not a request of `SIZE_MAX`, the one size for which
`size + BLOCK_SIZE` wraps around. -/
def Call.below_max : Call → Bool
  | Call.allocate size _ => decide (size < SIZE_MAX)
  | Call.free _ => true

/-- The chain after one call. -/
def apply_call (head : List MemoryBlock) : Call → List MemoryBlock
  | Call.allocate size algorithm => (allocate_memory head size algorithm).head
  | Call.free start_addr => (free_memory head start_addr).2

/-- The chain after `initialize_memory` followed by the given calls. -/
def run_calls (calls : List Call) : List MemoryBlock :=
  calls.foldl apply_call initialize_memory

/-- States reachable from `initialize_memory` by a finite sequence of
`allocate_memory` and `free_memory` calls with arguments of their C types. -/
def Reachable (head : List MemoryBlock) : Prop :=
  ∃ calls : List Call, calls.all Call.in_range = true ∧ run_calls calls = head

/-- Sum over the chain of `size + BLOCK_SIZE`, as an exact integer. -/
def pool_sum (head : List MemoryBlock) : Nat :=
  (head.map (fun b => b.size + BLOCK_SIZE)).sum

/-- Every block starts where its predecessor, data and metadata, ends. -/
def AddressChained (head : List MemoryBlock) : Prop :=
  List.Chain' (fun b n => n.start_addr = b.start_addr + b.size + BLOCK_SIZE) head

instance (head : List MemoryBlock) : Decidable (AddressChained head) :=
  chain_decidable head

/-- The start addresses strictly increase from the head to the tail. -/
def AddressIncreasing (head : List MemoryBlock) : Prop :=
  List.Chain' (fun b n => b.start_addr < n.start_addr) head

instance (head : List MemoryBlock) : Decidable (AddressIncreasing head) :=
  chain_decidable head

/-- Five one-unit allocations, release of the first four, then a request of 4
served from the merged block: the calls after which two blocks carry the
same start address. -/
def order_calls : List Call :=
  [Call.allocate 1 1, Call.allocate 1 1, Call.allocate 1 1, Call.allocate 1 1,
   Call.allocate 1 1, Call.free 0, Call.free 1, Call.free 2, Call.free 3,
   Call.allocate 4 1]

/-- Six one-unit allocations, release of the first five, then a request of 6
served from the merged block: the calls after which a small free block
precedes the large free block and carries the same start address. -/
def shadow_calls : List Call :=
  [Call.allocate 1 1, Call.allocate 1 1, Call.allocate 1 1, Call.allocate 1 1,
   Call.allocate 1 1, Call.allocate 1 1, Call.free 0, Call.free 1, Call.free 2,
   Call.free 3, Call.free 4, Call.allocate 6 1]

/-! ## Statistics of the source -/

/-- The four totals that `print_stats` accumulates and prints. -/
structure Stats where
  total_free : Nat
  total_used : Nat
  total_metadata : Nat
  total_available : Nat
deriving DecidableEq, Repr

/-- The `while` loop of `print_stats`; the totals are `size_t` variables. -/
def print_stats_loop : List MemoryBlock → Stats → Stats
  | [], s => s
  | current :: rest, s =>
    print_stats_loop rest
      { total_free :=
          if current.is_free then addU s.total_free current.size else s.total_free
        total_used :=
          if current.is_free then s.total_used else addU s.total_used current.size
        total_metadata := addU s.total_metadata BLOCK_SIZE
        total_available := addU s.total_available current.size }

/-- Function `print_stats`: the totals it prints, and the chain after the call
(the function assigns to no field of a block). -/
def print_stats (head : List MemoryBlock) : Stats × List MemoryBlock :=
  (print_stats_loop head ⟨0, 0, 0, 0⟩, head)

/-! ## Further specification vocabulary -/

/-- The calls after which the head block of the chain has size 0: a request of
3, a request of `SIZE_MAX` served from the rest, release of that block, a
request of `SIZE_MAX - 3` served from it, a request of 1 that takes the free
remainder of size 2, release of the block of size `SIZE_MAX - 3`, and release
of the head block. -/
def zero_size_calls : List Call :=
  [Call.allocate 3 1, Call.allocate SIZE_MAX 1, Call.free 2,
   Call.allocate (SIZE_MAX - 3) 1, Call.allocate 1 1, Call.free 2, Call.free 0]

/-- Sum of the sizes of all blocks of a chain, as an exact integer. -/
def size_sum (head : List MemoryBlock) : Nat :=
  (head.map MemoryBlock.size).sum

/-- Sum of the sizes of the free blocks of a chain, as an exact integer. -/
def free_size_sum : List MemoryBlock → Nat
  | [] => 0
  | b :: rest => (if b.is_free then b.size else 0) + free_size_sum rest

/-- Sum of the sizes of the allocated blocks of a chain, as an exact integer. -/
def used_size_sum : List MemoryBlock → Nat
  | [] => 0
  | b :: rest => (if b.is_free then 0 else b.size) + used_size_sum rest

/-! ## The chain as linked records in `memory_pool`

A second embedding of the same functions, in which a `MemoryBlock*` is the
offset of the record from the start of `memory_pool` (a `size_t` value) and the
chain is what the `next` pointers make it.  Two pointers denote the same
record exactly when they are equal, so the record that `split_MemoryBlock`
writes at `(char*)target + BLOCK_SIZE + size` is the target itself when that
sum wraps around to `target`.  As in the specification a record takes one
unit; records at different offsets are different records.  `memory_pool` has
static storage and starts zero-filled.  A loop of the source is a function
with fuel; the result `none` says that the loop has not ended within the
fuel. -/

namespace Linked

/-- One `struct MemoryBlock` in `memory_pool`; `next` is `none` for `NULL`. -/
structure Node where
  start_addr : Nat
  size : Nat
  is_free : Bool
  next : Option Nat
deriving DecidableEq, Repr

/-- The record read from zero-filled memory. -/
def zero_node : Node :=
  { start_addr := 0, size := 0, is_free := false, next := none }

/-- The record at pointer `p`: the latest one written there, or zeros. -/
def read : List (Nat × Node) → Nat → Node
  | [], _ => zero_node
  | (q, n) :: rest, p => if q = p then n else read rest p

/-- Assignment `p->start_addr = v`. -/
def write_start_addr (pool : List (Nat × Node)) (p : Nat) (v : Nat) : List (Nat × Node) :=
  (p, { read pool p with start_addr := v }) :: pool

/-- Assignment `p->size = v`. -/
def write_size (pool : List (Nat × Node)) (p : Nat) (v : Nat) : List (Nat × Node) :=
  (p, { read pool p with size := v }) :: pool

/-- Assignment `p->is_free = v`. -/
def write_is_free (pool : List (Nat × Node)) (p : Nat) (v : Bool) : List (Nat × Node) :=
  (p, { read pool p with is_free := v }) :: pool

/-- Assignment `p->next = v`. -/
def write_next (pool : List (Nat × Node)) (p : Nat) (v : Option Nat) : List (Nat × Node) :=
  (p, { read pool p with next := v }) :: pool

/-- The global `head` together with the contents of `memory_pool`. -/
structure Chain where
  head : Option Nat
  pool : List (Nat × Node)
deriving DecidableEq, Repr

/-- Function `initialize_memory`, statement by statement. -/
def initialize_memory : Chain :=
  let p1 := write_size [] 0 (MEMORY_SIZE - BLOCK_SIZE)
  let p2 := write_start_addr p1 0 0
  let p3 := write_is_free p2 0 true
  let p4 := write_next p3 0 none
  { head := some 0, pool := p4 }

/-- The test `current->is_free && current->size >= size + BLOCK_SIZE`. -/
def node_fits (current : Node) (size : Nat) : Bool :=
  current.is_free && decide (current.size ≥ addU size BLOCK_SIZE)

/-- Function `allocate_first_fit` from `current` on: the pointer returned and
the pool after the call. -/
def allocate_first_fit (pool : List (Nat × Node)) (size : Nat) :
    Nat → Option Nat → Option (Option Nat × List (Nat × Node))
  | 0, _ => none
  | _ + 1, none => some (none, pool)
  | fuel + 1, some current =>
    if node_fits (read pool current) size then
      some (some current, write_is_free pool current false)
    else allocate_first_fit pool size fuel (read pool current).next

/-- Function `allocate_best_fit` from `current` on, with the value of `best`. -/
def allocate_best_fit (pool : List (Nat × Node)) (size : Nat) :
    Nat → Option Nat → Option Nat → Option (Option Nat)
  | 0, _, _ => none
  | _ + 1, none, best => some best
  | fuel + 1, some current, best =>
    let best1 :=
      if node_fits (read pool current) size then
        match best with
        | none => some current
        | some b =>
          if (read pool current).size < (read pool b).size then some current else best
      else best
    allocate_best_fit pool size fuel (read pool current).next best1

/-- Function `allocate_worst_fit` from `current` on, with the value of `worst`. -/
def allocate_worst_fit (pool : List (Nat × Node)) (size : Nat) :
    Nat → Option Nat → Option Nat → Option (Option Nat)
  | 0, _, _ => none
  | _ + 1, none, worst => some worst
  | fuel + 1, some current, worst =>
    let worst1 :=
      if node_fits (read pool current) size then
        match worst with
        | none => some current
        | some w =>
          if (read pool current).size > (read pool w).size then some current else worst
      else worst
    allocate_worst_fit pool size fuel (read pool current).next worst1

/-- Function `split_MemoryBlock`, statement by statement; `new_block` is
`(char*)target + BLOCK_SIZE + size`. -/
def split_MemoryBlock (pool : List (Nat × Node)) (target : Nat) (size : Nat) :
    List (Nat × Node) :=
  let new_block := addU (addU target BLOCK_SIZE) size
  let p1 := write_start_addr pool new_block (addU (read pool target).start_addr size)
  let p2 := write_size p1 new_block (subU (subU (read p1 target).size size) BLOCK_SIZE)
  let p3 := write_is_free p2 new_block true
  let p4 := write_next p3 new_block (read p3 target).next
  let p5 := write_next p4 target (some new_block)
  write_size p5 target size

/-- The `switch` of `allocate_memory`. -/
def select_target (fuel : Nat) (c : Chain) (size : Nat) (algorithm : Int) :
    Option (Option Nat × List (Nat × Node)) :=
  if algorithm = 1 then allocate_first_fit c.pool size fuel c.head
  else if algorithm = 2 then
    (allocate_best_fit c.pool size fuel c.head none).map (fun t => (t, c.pool))
  else if algorithm = 3 then
    (allocate_worst_fit c.pool size fuel c.head none).map (fun t => (t, c.pool))
  else some (none, c.pool)

/-- Function `allocate_memory`: its return value and the chain after the call. -/
def allocate_memory (fuel : Nat) (c : Chain) (size : Nat) (algorithm : Int) :
    Option (Int × Chain) :=
  if size ≤ 0 then some (-1, c)
  else
    match select_target fuel c size algorithm with
    | none => none
    | some (none, pool1) => some (-1, { c with pool := pool1 })
    | some (some target, pool1) =>
      let pool2 :=
        if subU (subU (read pool1 target).size size) BLOCK_SIZE > BLOCK_SIZE then
          split_MemoryBlock pool1 target size
        else pool1
      some (0, { c with pool := write_is_free pool2 target false })

/-- The search loop of `free_memory`: the values of `current` and `prev` when it
ends. -/
def find_block (pool : List (Nat × Node)) (start_addr : Nat) :
    Nat → Option Nat → Option Nat → Option (Option Nat × Option Nat)
  | 0, _, _ => none
  | _ + 1, none, prev => some (none, prev)
  | fuel + 1, some current, prev =>
    if (read pool current).start_addr ≠ start_addr then
      find_block pool start_addr fuel (read pool current).next (some current)
    else some (some current, prev)

/-- The statements `p->size = p->size + q->size + BLOCK_SIZE; p->next = q->next`. -/
def absorb (pool : List (Nat × Node)) (p q : Nat) : List (Nat × Node) :=
  let p1 := write_size pool p (addU (addU (read pool p).size (read pool q).size) BLOCK_SIZE)
  write_next p1 p (read p1 q).next

/-- Function `free_memory`: which message it prints and the chain after the
call. -/
def free_memory (fuel : Nat) (c : Chain) (start_addr : Nat) :
    Option (FreeResult × Chain) :=
  match find_block c.pool start_addr fuel c.head none with
  | none => none
  | some (none, _) => some (FreeResult.not_found, c)
  | some (some current, prev) =>
    if (read c.pool current).is_free then some (FreeResult.already_free, c)
    else
      let pool1 := write_is_free c.pool current true
      let merged :=
        match prev with
        | none => false
        | some pv => (read pool1 pv).is_free
      let pool2 :=
        match prev with
        | none => pool1
        | some pv => if merged then absorb pool1 pv current else pool1
      let current2 :=
        match prev with
        | none => current
        | some pv => if merged then pv else current
      let pool3 :=
        match (read pool2 current2).next with
        | none => pool2
        | some next_block =>
          if (read pool2 next_block).is_free then absorb pool2 current2 next_block
          else pool2
      some (FreeResult.freed, { c with pool := pool3 })

/-- The chain after one call. -/
def apply_call (fuel : Nat) (c : Chain) : Call → Option Chain
  | Call.allocate size algorithm => (allocate_memory fuel c size algorithm).map Prod.snd
  | Call.free start_addr => (free_memory fuel c start_addr).map Prod.snd

/-- The chain after the given calls, each of which has returned. -/
def run (fuel : Nat) : List Call → Chain → Option Chain
  | [], c => some c
  | call :: rest, c =>
    match apply_call fuel c call with
    | none => none
    | some c1 => run fuel rest c1

/-- The records of the chain from `current` on, in chain order, as far as the
fuel reaches. -/
def blocks (pool : List (Nat × Node)) : Nat → Option Nat → List MemoryBlock
  | 0, _ => []
  | _ + 1, none => []
  | fuel + 1, some current =>
    { start_addr := (read pool current).start_addr
      size := (read pool current).size
      is_free := (read pool current).is_free } ::
      blocks pool fuel (read pool current).next

end Linked

/-! ## Lemmas on lists -/

theorem getElem?_snoc_cases {α : Type} {pre : List α} {c b : α} {j : Nat}
    (h : (pre ++ [c])[j]? = some b) :
    pre[j]? = some b ∨ (j = pre.length ∧ b = c) := by
  rw [List.getElem?_append] at h
  split at h
  · exact Or.inl h
  · rename_i hj
    right
    have hlt : j - pre.length < 1 := by
      by_contra hge
      rw [List.getElem?_eq_none (by simp only [List.length_singleton]; omega)] at h
      exact Option.noConfusion h
    have hj0 : j - pre.length = 0 := by omega
    rw [hj0] at h
    simp at h
    exact ⟨by omega, h.symm⟩

theorem getElem?_snoc_of_some {α : Type} {pre : List α} {c b : α} {j : Nat}
    (h : pre[j]? = some b) : (pre ++ [c])[j]? = some b := by
  have hj : j < pre.length := (List.getElem?_eq_some.mp h).1
  rw [List.getElem?_append_left hj]
  exact h

theorem lt_length_of_getElem? {α : Type} {l : List α} {b : α} {j : Nat}
    (h : l[j]? = some b) : j < l.length :=
  (List.getElem?_eq_some.mp h).1

/-! ## Best fit -/

theorem best_fit_step_inv (size : Nat) (pre : List MemoryBlock)
    (best : Option (Nat × MemoryBlock)) (c : MemoryBlock)
    (h : BestInv size pre best) :
    BestInv size (pre ++ [c]) (best_fit_step size best pre.length c) := by
  unfold best_fit_step
  by_cases hc : fits c size = true
  · rw [if_pos hc]
    cases best with
    | none =>
      simp only [BestInv] at h ⊢
      refine ⟨List.getElem?_concat_length pre c, hc, ?_, ?_⟩
      · intro j b hj hb
        rcases getElem?_snoc_cases hj with hj | ⟨_, rfl⟩
        · have := h b (List.getElem?_mem hj)
          rw [this] at hb
          exact Bool.noConfusion hb
        · exact le_rfl
      · intro j b hlt hj hb
        rcases getElem?_snoc_cases hj with hj | ⟨hj, _⟩
        · have := h b (List.getElem?_mem hj)
          rw [this] at hb
          exact Bool.noConfusion hb
        · omega
    | some p =>
      obtain ⟨k, t⟩ := p
      simp only [BestInv] at h
      obtain ⟨hk, ht, hmin, hfirst⟩ := h
      by_cases hlt : c.size < t.size
      · simp only [hlt, if_true, BestInv]
        refine ⟨List.getElem?_concat_length pre c, hc, ?_, ?_⟩
        · intro j b hj hb
          rcases getElem?_snoc_cases hj with hj | ⟨_, rfl⟩
          · exact le_trans (le_of_lt hlt) (hmin j b hj hb)
          · exact le_rfl
        · intro j b hjlt hj hb
          rcases getElem?_snoc_cases hj with hj | ⟨hj, _⟩
          · exact lt_of_lt_of_le hlt (hmin j b hj hb)
          · omega
      · simp only [hlt, if_false, BestInv]
        refine ⟨getElem?_snoc_of_some hk, ht, ?_, ?_⟩
        · intro j b hj hb
          rcases getElem?_snoc_cases hj with hj | ⟨_, rfl⟩
          · exact hmin j b hj hb
          · exact not_lt.mp hlt
        · intro j b hjlt hj hb
          rcases getElem?_snoc_cases hj with hj | ⟨hj, _⟩
          · exact hfirst j b hjlt hj hb
          · have := lt_length_of_getElem? hk
            omega
  · rw [if_neg hc]
    have hc' : fits c size = false := by simpa using hc
    cases best with
    | none =>
      simp only [BestInv] at h ⊢
      intro b hb
      rcases List.mem_append.mp hb with hb | hb
      · exact h b hb
      · rw [List.mem_singleton.mp hb]
        exact hc'
    | some p =>
      obtain ⟨k, t⟩ := p
      simp only [BestInv] at h ⊢
      obtain ⟨hk, ht, hmin, hfirst⟩ := h
      refine ⟨getElem?_snoc_of_some hk, ht, ?_, ?_⟩
      · intro j b hj hb
        rcases getElem?_snoc_cases hj with hj | ⟨_, rfl⟩
        · exact hmin j b hj hb
        · rw [hc'] at hb
          exact Bool.noConfusion hb
      · intro j b hjlt hj hb
        rcases getElem?_snoc_cases hj with hj | ⟨_, rfl⟩
        · exact hfirst j b hjlt hj hb
        · rw [hc'] at hb
          exact Bool.noConfusion hb

theorem best_fit_loop_inv (size : Nat) (l : List MemoryBlock) :
    ∀ (pre : List MemoryBlock) (best : Option (Nat × MemoryBlock)),
      BestInv size pre best →
      BestInv size (pre ++ l) (best_fit_loop size l pre.length best) := by
  induction l with
  | nil =>
    intro pre best h
    simpa [best_fit_loop] using h
  | cons c rest ih =>
    intro pre best h
    have hstep := best_fit_step_inv size pre best c h
    have := ih (pre ++ [c]) _ hstep
    simpa [best_fit_loop, List.length_append] using this

theorem best_fit_inv (head : List MemoryBlock) (size : Nat) :
    BestInv size head (best_fit_loop size head 0 none) := by
  have h0 : BestInv size [] none := by
    simp only [BestInv]
    intro b hb
    exact absurd hb (List.not_mem_nil b)
  simpa using best_fit_loop_inv size head [] none h0


/-! ## Worst fit -/

theorem worst_fit_step_inv (size : Nat) (pre : List MemoryBlock)
    (worst : Option (Nat × MemoryBlock)) (c : MemoryBlock)
    (h : WorstInv size pre worst) :
    WorstInv size (pre ++ [c]) (worst_fit_step size worst pre.length c) := by
  unfold worst_fit_step
  by_cases hc : fits c size = true
  · rw [if_pos hc]
    cases worst with
    | none =>
      simp only [WorstInv] at h ⊢
      refine ⟨List.getElem?_concat_length pre c, hc, ?_, ?_⟩
      · intro j b hj hb
        rcases getElem?_snoc_cases hj with hj | ⟨_, rfl⟩
        · have := h b (List.getElem?_mem hj)
          rw [this] at hb
          exact Bool.noConfusion hb
        · exact le_rfl
      · intro j b hlt hj hb
        rcases getElem?_snoc_cases hj with hj | ⟨hj, _⟩
        · have := h b (List.getElem?_mem hj)
          rw [this] at hb
          exact Bool.noConfusion hb
        · omega
    | some p =>
      obtain ⟨k, t⟩ := p
      simp only [WorstInv] at h
      obtain ⟨hk, ht, hmax, hfirst⟩ := h
      by_cases hgt : c.size > t.size
      · simp only [hgt, if_true, WorstInv]
        refine ⟨List.getElem?_concat_length pre c, hc, ?_, ?_⟩
        · intro j b hj hb
          rcases getElem?_snoc_cases hj with hj | ⟨_, rfl⟩
          · exact le_trans (hmax j b hj hb) (le_of_lt hgt)
          · exact le_rfl
        · intro j b hjlt hj hb
          rcases getElem?_snoc_cases hj with hj | ⟨hj, _⟩
          · exact lt_of_le_of_lt (hmax j b hj hb) hgt
          · omega
      · simp only [hgt, if_false, WorstInv]
        refine ⟨getElem?_snoc_of_some hk, ht, ?_, ?_⟩
        · intro j b hj hb
          rcases getElem?_snoc_cases hj with hj | ⟨_, rfl⟩
          · exact hmax j b hj hb
          · exact not_lt.mp hgt
        · intro j b hjlt hj hb
          rcases getElem?_snoc_cases hj with hj | ⟨hj, _⟩
          · exact hfirst j b hjlt hj hb
          · have := lt_length_of_getElem? hk
            omega
  · rw [if_neg hc]
    have hc' : fits c size = false := by simpa using hc
    cases worst with
    | none =>
      simp only [WorstInv] at h ⊢
      intro b hb
      rcases List.mem_append.mp hb with hb | hb
      · exact h b hb
      · rw [List.mem_singleton.mp hb]
        exact hc'
    | some p =>
      obtain ⟨k, t⟩ := p
      simp only [WorstInv] at h ⊢
      obtain ⟨hk, ht, hmax, hfirst⟩ := h
      refine ⟨getElem?_snoc_of_some hk, ht, ?_, ?_⟩
      · intro j b hj hb
        rcases getElem?_snoc_cases hj with hj | ⟨_, rfl⟩
        · exact hmax j b hj hb
        · rw [hc'] at hb
          exact Bool.noConfusion hb
      · intro j b hjlt hj hb
        rcases getElem?_snoc_cases hj with hj | ⟨_, rfl⟩
        · exact hfirst j b hjlt hj hb
        · rw [hc'] at hb
          exact Bool.noConfusion hb

theorem worst_fit_loop_inv (size : Nat) (l : List MemoryBlock) :
    ∀ (pre : List MemoryBlock) (worst : Option (Nat × MemoryBlock)),
      WorstInv size pre worst →
      WorstInv size (pre ++ l) (worst_fit_loop size l pre.length worst) := by
  induction l with
  | nil =>
    intro pre worst h
    simpa [worst_fit_loop] using h
  | cons c rest ih =>
    intro pre worst h
    have hstep := worst_fit_step_inv size pre worst c h
    have := ih (pre ++ [c]) _ hstep
    simpa [worst_fit_loop, List.length_append] using this

theorem worst_fit_inv (head : List MemoryBlock) (size : Nat) :
    WorstInv size head (worst_fit_loop size head 0 none) := by
  have h0 : WorstInv size [] none := by
    simp only [WorstInv]
    intro b hb
    exact absurd hb (List.not_mem_nil b)
  simpa using worst_fit_loop_inv size head [] none h0

/-! ## First fit -/

theorem first_fit_loop_none (size : Nat) (l : List MemoryBlock) :
    ∀ k, first_fit_loop size l k = none ↔ ∀ b ∈ l, fits b size = false := by
  induction l with
  | nil => intro k; simp [first_fit_loop]
  | cons c rest ih =>
    intro k
    by_cases hc : fits c size = true
    · simp [first_fit_loop, hc]
    · have hc' : fits c size = false := by simpa using hc
      simp [first_fit_loop, hc', ih (k + 1)]

theorem first_fit_loop_some (size : Nat) (l : List MemoryBlock) :
    ∀ k i, first_fit_loop size l k = some i →
      k ≤ i ∧ (∃ t, l[i - k]? = some t ∧ fits t size = true) ∧
      ∀ (j : Nat) (b : MemoryBlock), j < i - k → l[j]? = some b → fits b size = false := by
  induction l with
  | nil => intro k i h; simp [first_fit_loop] at h
  | cons c rest ih =>
    intro k i h
    by_cases hc : fits c size = true
    · simp only [first_fit_loop, hc, if_true, Option.some.injEq] at h
      subst h
      refine ⟨le_rfl, ⟨c, by simp, hc⟩, ?_⟩
      intro j b hj
      omega
    · have hc' : fits c size = false := by simpa using hc
      simp only [first_fit_loop, hc'] at h
      obtain ⟨hle, ⟨t, ht, hft⟩, hbefore⟩ := ih (k + 1) i (by simpa using h)
      have hik : i - k = (i - (k + 1)) + 1 := by omega
      refine ⟨by omega, ⟨t, ?_, hft⟩, ?_⟩
      · rw [hik, List.getElem?_cons_succ]
        exact ht
      · intro j b hj hb
        cases j with
        | zero =>
          simp only [List.getElem?_cons_zero, Option.some.injEq] at hb
          rw [← hb]
          exact hc'
        | succ j =>
          rw [List.getElem?_cons_succ] at hb
          exact hbefore j b (by omega) hb

/-! ## Selection theorems -/

theorem fits_iff_exact (size : Nat) (b : MemoryBlock) (hsz : size < SIZE_MAX) :
    fits b size = true ↔ b.is_free = true ∧ size + BLOCK_SIZE ≤ b.size := by
  have hmod : addU size BLOCK_SIZE = size + BLOCK_SIZE := by
    unfold addU
    apply Nat.mod_eq_of_lt
    unfold SIZE_MAX at hsz
    unfold BLOCK_SIZE
    omega
  simp [fits, hmod]

theorem allocate_best_fit_sound (head : List MemoryBlock) (size : Nat) :
    ∀ i, allocate_best_fit head size = some i →
      ∃ t, head[i]? = some t ∧ fits t size = true ∧
        (∀ (j : Nat) (b : MemoryBlock), head[j]? = some b → fits b size = true →
          t.size ≤ b.size) ∧
        (∀ (j : Nat) (b : MemoryBlock), j < i → head[j]? = some b →
          fits b size = true → t.size < b.size) := by
  intro i hi
  have hinv := best_fit_inv head size
  unfold allocate_best_fit at hi
  cases hres : best_fit_loop size head 0 none with
  | none => rw [hres] at hi; exact Option.noConfusion hi
  | some p =>
    obtain ⟨k, t⟩ := p
    rw [hres] at hinv hi
    simp only [Option.map_some', Option.some.injEq] at hi
    subst hi
    simp only [BestInv] at hinv
    exact ⟨t, hinv⟩

theorem allocate_worst_fit_sound (head : List MemoryBlock) (size : Nat) :
    ∀ i, allocate_worst_fit head size = some i →
      ∃ t, head[i]? = some t ∧ fits t size = true ∧
        (∀ (j : Nat) (b : MemoryBlock), head[j]? = some b → fits b size = true →
          b.size ≤ t.size) ∧
        (∀ (j : Nat) (b : MemoryBlock), j < i → head[j]? = some b →
          fits b size = true → b.size < t.size) := by
  intro i hi
  have hinv := worst_fit_inv head size
  unfold allocate_worst_fit at hi
  cases hres : worst_fit_loop size head 0 none with
  | none => rw [hres] at hi; exact Option.noConfusion hi
  | some p =>
    obtain ⟨k, t⟩ := p
    rw [hres] at hinv hi
    simp only [Option.map_some', Option.some.injEq] at hi
    subst hi
    simp only [WorstInv] at hinv
    exact ⟨t, hinv⟩

theorem allocate_best_fit_none (head : List MemoryBlock) (size : Nat) :
    allocate_best_fit head size = none ↔ ∀ b ∈ head, fits b size = false := by
  have hinv := best_fit_inv head size
  unfold allocate_best_fit
  cases hres : best_fit_loop size head 0 none with
  | none =>
    rw [hres] at hinv
    simpa [BestInv] using hinv
  | some p =>
    obtain ⟨k, t⟩ := p
    rw [hres] at hinv
    simp only [BestInv] at hinv
    obtain ⟨hk, ht, _, _⟩ := hinv
    simp only [Option.map_some']
    refine ⟨fun h => Option.noConfusion h, fun hall => ?_⟩
    rw [hall t (List.getElem?_mem hk)] at ht
    exact Bool.noConfusion ht

theorem allocate_worst_fit_none (head : List MemoryBlock) (size : Nat) :
    allocate_worst_fit head size = none ↔ ∀ b ∈ head, fits b size = false := by
  have hinv := worst_fit_inv head size
  unfold allocate_worst_fit
  cases hres : worst_fit_loop size head 0 none with
  | none =>
    rw [hres] at hinv
    simpa [WorstInv] using hinv
  | some p =>
    obtain ⟨k, t⟩ := p
    rw [hres] at hinv
    simp only [WorstInv] at hinv
    obtain ⟨hk, ht, _, _⟩ := hinv
    simp only [Option.map_some']
    refine ⟨fun h => Option.noConfusion h, fun hall => ?_⟩
    rw [hall t (List.getElem?_mem hk)] at ht
    exact Bool.noConfusion ht

/-- C7 (BestFit selection). For every block list and every requested size,
`allocate_best_fit` returns no block exactly when no block passes the test of
the search (free, and `size >= requestedSize + BLOCK_SIZE` as the code computes
that sum); otherwise the block returned passes the test, its size is the least
among all blocks that pass it, and every earlier block that passes it is
strictly larger, so among the least-size blocks it is the first of the chain.
For every request below `SIZE_MAX` the sum the code computes is the exact
integer sum. -/
theorem allocate_best_fit_selects (head : List MemoryBlock) (size : Nat) :
    (allocate_best_fit head size = none ↔ ∀ b ∈ head, fits b size = false) ∧
    (∀ i, allocate_best_fit head size = some i →
      ∃ t, head[i]? = some t ∧ fits t size = true ∧
        (∀ (j : Nat) (b : MemoryBlock), head[j]? = some b → fits b size = true →
          t.size ≤ b.size) ∧
        (∀ (j : Nat) (b : MemoryBlock), j < i → head[j]? = some b →
          fits b size = true → t.size < b.size)) ∧
    (size < SIZE_MAX → ∀ b : MemoryBlock,
      (fits b size = true ↔ b.is_free = true ∧ size + BLOCK_SIZE ≤ b.size)) := by
  refine ⟨?_, ?_, fun hsz b => fits_iff_exact size b hsz⟩
  · exact allocate_best_fit_none head size
  · exact allocate_best_fit_sound head size


/-- Witness for C7: on a chain with two fitting blocks of the least size the
earlier one is returned. -/
theorem allocate_best_fit_selects_witness :
    allocate_best_fit demo_chain 3 = some 1 ∧
    ∃ t, demo_chain[1]? = some t ∧ fits t 3 = true ∧
      (∀ (j : Nat) (b : MemoryBlock), demo_chain[j]? = some b → fits b 3 = true →
        t.size ≤ b.size) ∧
      (∀ (j : Nat) (b : MemoryBlock), j < 1 → demo_chain[j]? = some b →
        fits b 3 = true → t.size < b.size) :=
  ⟨by decide, (allocate_best_fit_selects demo_chain 3).2.1 1 (by decide)⟩

/-- C8 (WorstFit selection). For every block list and every requested size,
`allocate_worst_fit` returns no block exactly when no block passes the test of
the search (free, and `size >= requestedSize + BLOCK_SIZE` as the code computes
that sum); otherwise the block returned passes the test, its size is the
greatest among all blocks that pass it, and every earlier block that passes it
is strictly smaller, so among the greatest-size blocks it is the first of the
chain.  For every request below `SIZE_MAX` the sum the code computes is the
exact integer sum. -/
theorem allocate_worst_fit_selects (head : List MemoryBlock) (size : Nat) :
    (allocate_worst_fit head size = none ↔ ∀ b ∈ head, fits b size = false) ∧
    (∀ i, allocate_worst_fit head size = some i →
      ∃ t, head[i]? = some t ∧ fits t size = true ∧
        (∀ (j : Nat) (b : MemoryBlock), head[j]? = some b → fits b size = true →
          b.size ≤ t.size) ∧
        (∀ (j : Nat) (b : MemoryBlock), j < i → head[j]? = some b →
          fits b size = true → b.size < t.size)) ∧
    (size < SIZE_MAX → ∀ b : MemoryBlock,
      (fits b size = true ↔ b.is_free = true ∧ size + BLOCK_SIZE ≤ b.size)) := by
  refine ⟨?_, ?_, fun hsz b => fits_iff_exact size b hsz⟩
  · exact allocate_worst_fit_none head size
  · exact allocate_worst_fit_sound head size

/-- Witness for C8: on a chain with two fitting blocks of the greatest size
the earlier one is returned. -/
theorem allocate_worst_fit_selects_witness :
    allocate_worst_fit demo_chain 3 = some 0 ∧
    ∃ t, demo_chain[0]? = some t ∧ fits t 3 = true ∧
      (∀ (j : Nat) (b : MemoryBlock), demo_chain[j]? = some b → fits b 3 = true →
        b.size ≤ t.size) ∧
      (∀ (j : Nat) (b : MemoryBlock), j < 0 → demo_chain[j]? = some b →
        fits b 3 = true → b.size < t.size) :=
  ⟨by decide, (allocate_worst_fit_selects demo_chain 3).2.1 0 (by decide)⟩

/-- C9 (FirstFit selection). For every block list and every requested size,
`allocate_first_fit` returns no block exactly when no block passes the test of
the search (free, and `size >= requestedSize + BLOCK_SIZE` as the code computes
that sum); otherwise the block returned passes the test and every block before
it in the chain fails it (it is allocated or too small).  For every request
below `SIZE_MAX` the sum the code computes is the exact integer sum. -/
theorem allocate_first_fit_selects (head : List MemoryBlock) (size : Nat) :
    ((allocate_first_fit head size).1 = none ↔ ∀ b ∈ head, fits b size = false) ∧
    (∀ i, (allocate_first_fit head size).1 = some i →
      ∃ t, head[i]? = some t ∧ fits t size = true ∧
        (∀ (j : Nat) (b : MemoryBlock), j < i → head[j]? = some b →
          fits b size = false ∧ (b.is_free = false ∨ b.size < addU size BLOCK_SIZE))) ∧
    (size < SIZE_MAX → ∀ b : MemoryBlock,
      (fits b size = true ↔ b.is_free = true ∧ size + BLOCK_SIZE ≤ b.size)) := by
  refine ⟨?_, ?_, fun hsz b => fits_iff_exact size b hsz⟩
  · rw [← first_fit_loop_none size head 0]
    unfold allocate_first_fit
    cases first_fit_loop size head 0 <;> simp
  · intro i hi
    have hloop : first_fit_loop size head 0 = some i := by
      unfold allocate_first_fit at hi
      cases hres : first_fit_loop size head 0 with
      | none => rw [hres] at hi; exact Option.noConfusion hi
      | some k => rw [hres] at hi; exact hi
    obtain ⟨_, ⟨t, ht, hft⟩, hbefore⟩ := first_fit_loop_some size head 0 i hloop
    refine ⟨t, by simpa using ht, hft, ?_⟩
    intro j b hj hb
    have hnot := hbefore j b (by simpa using hj) hb
    refine ⟨hnot, ?_⟩
    unfold fits at hnot
    cases hfree : b.is_free with
    | false => exact Or.inl rfl
    | true =>
      right
      rw [hfree] at hnot
      simpa using hnot

/-- Witness for C9: the first fitting block of the chain is returned although
a later one is smaller. -/
theorem allocate_first_fit_selects_witness :
    (allocate_first_fit demo_chain 3).1 = some 0 ∧
    ∃ t, demo_chain[0]? = some t ∧ fits t 3 = true ∧
      (∀ (j : Nat) (b : MemoryBlock), j < 0 → demo_chain[j]? = some b →
        fits b 3 = false ∧ (b.is_free = false ∨ b.size < addU 3 BLOCK_SIZE)) :=
  ⟨by decide, (allocate_first_fit_selects demo_chain 3).2.1 0 (by decide)⟩

/-! ## Operations on a chain split at a position -/

theorem getElem?_mid {α : Type} (pre post : List α) (t : α) :
    (pre ++ t :: post)[pre.length]? = some t := by
  induction pre with
  | nil => simp
  | cons a pre ih => simpa using ih

theorem getElem?_mid_succ {α : Type} (pre post : List α) (t n : α) :
    (pre ++ t :: n :: post)[pre.length + 1]? = some n := by
  have := getElem?_mid (pre ++ [t]) post n
  simpa using this

theorem getElem?_mid_end {α : Type} (pre : List α) (t : α) :
    (pre ++ [t])[pre.length + 1]? = none := by
  apply List.getElem?_eq_none
  simp

theorem decompose_at {α : Type} {l : List α} {i : Nat} {t : α} (h : l[i]? = some t) :
    ∃ pre post, l = pre ++ t :: post ∧ pre.length = i := by
  obtain ⟨hlt, hget⟩ := List.getElem?_eq_some.mp h
  refine ⟨l.take i, l.drop (i + 1), ?_, ?_⟩
  · rw [← hget, List.getElem_cons_drop, List.take_append_drop]
  · rw [List.length_take]
    omega

theorem set_is_free_mid (pre post : List MemoryBlock) (t : MemoryBlock) (v : Bool) :
    set_is_free (pre ++ t :: post) pre.length v = pre ++ { t with is_free := v } :: post := by
  unfold set_is_free
  rw [getElem?_mid]
  simp

theorem split_MemoryBlock_mid (pre post : List MemoryBlock) (t : MemoryBlock) (size : Nat) :
    split_MemoryBlock (pre ++ t :: post) pre.length size =
      pre ++ { t with size := size } ::
        { start_addr := addU t.start_addr size
          size := subU (subU t.size size) BLOCK_SIZE
          is_free := true } :: post := by
  unfold split_MemoryBlock
  rw [getElem?_mid]
  simp

theorem absorb_next_mid (pre post : List MemoryBlock) (a b : MemoryBlock) :
    absorb_next (pre ++ a :: b :: post) pre.length = pre ++ join a b :: post := by
  unfold absorb_next
  rw [getElem?_mid, getElem?_mid_succ]
  simp [join]

theorem is_free_at_mid (pre post : List MemoryBlock) (t : MemoryBlock) :
    is_free_at (pre ++ t :: post) (some pre.length) = t.is_free := by
  simp only [is_free_at, getElem?_mid]

theorem is_free_at_mid_succ (pre post : List MemoryBlock) (t n : MemoryBlock) :
    is_free_at (pre ++ t :: n :: post) (some (pre.length + 1)) = n.is_free := by
  simp only [is_free_at, getElem?_mid_succ]

theorem is_free_at_mid_end (pre : List MemoryBlock) (t : MemoryBlock) :
    is_free_at (pre ++ [t]) (some (pre.length + 1)) = false := by
  simp only [is_free_at, getElem?_mid_end]

theorem find_loop_mid (a : Nat) (pre post : List MemoryBlock) (c : MemoryBlock)
    (hpre : ∀ b ∈ pre, b.start_addr ≠ a) (hc : c.start_addr = a) :
    ∀ k, find_loop a (pre ++ c :: post) k = some (k + pre.length) := by
  induction pre with
  | nil => intro k; simp [find_loop, hc]
  | cons x pre ih =>
    intro k
    have hx : x.start_addr ≠ a := hpre x (List.mem_cons_self x pre)
    have := ih (fun b hb => hpre b (List.mem_cons_of_mem x hb)) (k + 1)
    show (if x.start_addr ≠ a then find_loop a (pre ++ c :: post) (k + 1) else some k) = _
    rw [if_pos hx, this, List.length_cons]
    exact congrArg some (by omega)

theorem find_loop_none (a : Nat) (l : List MemoryBlock) :
    ∀ k, find_loop a l k = none ↔ ∀ b ∈ l, b.start_addr ≠ a := by
  induction l with
  | nil => intro k; simp [find_loop]
  | cons c rest ih =>
    intro k
    by_cases hc : c.start_addr = a
    · simp [find_loop, hc]
    · simp [find_loop, hc, ih (k + 1)]

theorem find_loop_some (a : Nat) (l : List MemoryBlock) :
    ∀ k i, find_loop a l k = some i →
      ∃ pre c post, l = pre ++ c :: post ∧ i = k + pre.length ∧
        (∀ b ∈ pre, b.start_addr ≠ a) ∧ c.start_addr = a := by
  induction l with
  | nil => intro k i h; simp [find_loop] at h
  | cons x rest ih =>
    intro k i h
    by_cases hx : x.start_addr = a
    · simp only [find_loop, hx, ne_eq, not_true_eq_false, if_false, Option.some.injEq] at h
      exact ⟨[], x, rest, rfl, by simp [h], by simp, hx⟩
    · simp only [find_loop, hx, ne_eq, not_false_eq_true, if_true] at h
      obtain ⟨pre, c, post, hl, hi, hpre, hc⟩ := ih (k + 1) i h
      refine ⟨x :: pre, c, post, by simp [hl], by simp [hi]; omega, ?_, hc⟩
      intro b hb
      rcases List.mem_cons.mp hb with rfl | hb
      · exact hx
      · exact hpre b hb


/-! ## Shape of the chain after a call -/

theorem select_target_shape (head : List MemoryBlock) (size : Nat) (algorithm : Int) :
    (select_target head size algorithm = (none, head) ∧
      ((algorithm ≠ 1 ∧ algorithm ≠ 2 ∧ algorithm ≠ 3) ∨ ∀ b ∈ head, fits b size = false)) ∨
    ∃ pre t post, head = pre ++ t :: post ∧ fits t size = true ∧
      ∃ t1 : MemoryBlock, t1.start_addr = t.start_addr ∧ t1.size = t.size ∧
        select_target head size algorithm = (some pre.length, pre ++ t1 :: post) := by
  unfold select_target
  by_cases h1 : algorithm = 1
  · rw [if_pos h1]
    unfold allocate_first_fit
    cases hres : first_fit_loop size head 0 with
    | none => exact Or.inl ⟨rfl, Or.inr ((first_fit_loop_none size head 0).mp hres)⟩
    | some i =>
      right
      obtain ⟨_, ⟨t, ht, hft⟩, _⟩ := first_fit_loop_some size head 0 i hres
      obtain ⟨pre, post, hhead, hlen⟩ := decompose_at ht
      refine ⟨pre, t, post, hhead, hft, { t with is_free := false }, rfl, rfl, ?_⟩
      have hi : i = pre.length := by omega
      subst hi
      simp only [hhead, set_is_free_mid]
  · rw [if_neg h1]
    by_cases h2 : algorithm = 2
    · rw [if_pos h2]
      cases hres : allocate_best_fit head size with
      | none => exact Or.inl ⟨rfl, Or.inr ((allocate_best_fit_none head size).mp hres)⟩
      | some i =>
        right
        obtain ⟨t, ht, hft, _⟩ := (allocate_best_fit_sound head size) i hres
        obtain ⟨pre, post, hhead, hlen⟩ := decompose_at ht
        subst hlen
        exact ⟨_, t, post, hhead, hft, t, rfl, rfl, by rw [← hhead]⟩
    · rw [if_neg h2]
      by_cases h3 : algorithm = 3
      · rw [if_pos h3]
        cases hres : allocate_worst_fit head size with
        | none => exact Or.inl ⟨rfl, Or.inr ((allocate_worst_fit_none head size).mp hres)⟩
        | some i =>
          right
          obtain ⟨t, ht, hft, _⟩ := (allocate_worst_fit_sound head size) i hres
          obtain ⟨pre, post, hhead, hlen⟩ := decompose_at ht
          subst hlen
          exact ⟨_, t, post, hhead, hft, t, rfl, rfl, by rw [← hhead]⟩
      · rw [if_neg h3]
        exact Or.inl ⟨rfl, Or.inl ⟨h1, h2, h3⟩⟩

theorem allocate_memory_shape (head : List MemoryBlock) (size : Nat) (algorithm : Int) :
    (allocate_memory head size algorithm = ⟨-1, none, head⟩ ∧
      (size = 0 ∨ (algorithm ≠ 1 ∧ algorithm ≠ 2 ∧ algorithm ≠ 3) ∨
        ∀ b ∈ head, fits b size = false)) ∨
    ∃ pre t post, head = pre ++ t :: post ∧ fits t size = true ∧ 0 < size ∧
      (select_target head size algorithm).1 = some pre.length ∧
      allocate_memory head size algorithm =
        ⟨0, some t.start_addr, pre ++ alloc_blocks t size ++ post⟩ := by
  unfold allocate_memory
  by_cases hsz : size ≤ 0
  · rw [if_pos hsz]
    exact Or.inl ⟨rfl, Or.inl (by omega)⟩
  · rw [if_neg hsz]
    rcases select_target_shape head size algorithm with
      ⟨hsel, hwhy⟩ | ⟨pre, t, post, hhead, hft, t1, ha, hs, hsel⟩
    · rw [hsel]
      exact Or.inl ⟨rfl, Or.inr hwhy⟩
    · right
      refine ⟨pre, t, post, hhead, hft, by omega, by rw [hsel], ?_⟩
      rw [hsel]
      simp only [getElem?_mid]
      unfold alloc_blocks
      rw [hs, ha]
      by_cases hsplit : subU (subU t.size size) BLOCK_SIZE > BLOCK_SIZE
      · simp only [hsplit, if_true, split_MemoryBlock_mid, set_is_free_mid, ha, hs]
        simp
      · simp only [hsplit, if_false, set_is_free_mid]
        have : ({ t1 with is_free := false } : MemoryBlock) = { t with is_free := false } := by
          cases t1; cases t; simp_all
        simp [this]


theorem is_free_at_none (head : List MemoryBlock) : is_free_at head none = false := rfl

theorem forward_merge_mid (pre post : List MemoryBlock) (cur : MemoryBlock) :
    (if is_free_at (pre ++ cur :: post) (some (pre.length + 1)) = true then
        absorb_next (pre ++ cur :: post) pre.length
      else pre ++ cur :: post) =
    merge_forward pre cur post := by
  cases post with
  | nil => simp [is_free_at_mid_end, merge_forward]
  | cons n rest =>
    rw [is_free_at_mid_succ, absorb_next_mid]
    rfl

theorem free_memory_mid (a : Nat) (pre post : List MemoryBlock) (c : MemoryBlock)
    (hpre : ∀ b ∈ pre, b.start_addr ≠ a) (hc : c.start_addr = a)
    (hfree : c.is_free = false) :
    free_memory (pre ++ c :: post) a = (FreeResult.freed, coalesce pre c post) := by
  unfold free_memory
  rw [find_loop_mid a pre post c hpre hc 0]
  simp only [Nat.zero_add, is_free_at_mid, hfree, Bool.false_eq_true, if_false,
    set_is_free_mid]
  congr 1
  rcases List.eq_nil_or_concat pre with hnil | ⟨pre1, p, hcat⟩
  · subst hnil
    have hfw := forward_merge_mid [] post { c with is_free := true }
    simp only [List.length_nil, List.nil_append, Nat.zero_add] at hfw
    simp only [List.length_nil, if_true, is_free_at_none, Bool.false_eq_true, if_false,
      List.nil_append, Nat.zero_add, coalesce, List.getLast?_nil]
    rw [hfw]
  · rw [List.concat_eq_append] at hcat
    subst hcat
    have hlen : (pre1 ++ [p]).length = pre1.length + 1 := by simp
    have hne : ¬ (pre1.length + 1 = 0) := by omega
    have hshape : pre1 ++ [p] ++ { c with is_free := true } :: post =
        pre1 ++ p :: { c with is_free := true } :: post := by simp
    simp only [hlen, hne, if_false, Nat.add_sub_cancel, hshape, is_free_at_mid]
    cases hp : p.is_free with
    | true =>
      simp only [if_true, absorb_next_mid]
      rw [forward_merge_mid pre1 post (join p { c with is_free := true })]
      simp only [coalesce, List.getLast?_concat, hp, if_true, List.dropLast_concat]
    | false =>
      simp only [Bool.false_eq_true, if_false]
      have hfw := forward_merge_mid (pre1 ++ [p]) post { c with is_free := true }
      simp only [hlen, hshape] at hfw
      rw [hfw]
      simp only [coalesce, List.getLast?_concat, hp, Bool.false_eq_true, if_false]

theorem free_memory_shape (head : List MemoryBlock) (a : Nat) :
    (free_memory head a = (FreeResult.not_found, head) ∧ ∀ b ∈ head, b.start_addr ≠ a) ∨
    (∃ pre c post, head = pre ++ c :: post ∧ (∀ b ∈ pre, b.start_addr ≠ a) ∧
      c.start_addr = a ∧
      ((c.is_free = true ∧ free_memory head a = (FreeResult.already_free, head)) ∨
       (c.is_free = false ∧
        free_memory head a = (FreeResult.freed, coalesce pre c post)))) := by
  cases hfind : find_loop a head 0 with
  | none =>
    left
    refine ⟨?_, (find_loop_none a head 0).mp hfind⟩
    unfold free_memory
    rw [hfind]
  | some i =>
    right
    obtain ⟨pre, c, post, hhead, hi, hpre, hc⟩ := find_loop_some a head 0 i hfind
    refine ⟨pre, c, post, hhead, hpre, hc, ?_⟩
    cases hfree : c.is_free with
    | true =>
      left
      refine ⟨rfl, ?_⟩
      unfold free_memory
      rw [hfind, hhead, hi]
      simp only [Nat.zero_add, is_free_at_mid, hfree, if_true]
    | false =>
      right
      refine ⟨rfl, ?_⟩
      rw [hhead]
      exact free_memory_mid a pre post c hpre hc hfree


/-! ## No two adjacent free blocks -/

theorem noAdjacentFree_mid (pre post : List MemoryBlock) (m : MemoryBlock) :
    NoAdjacentFree (pre ++ m :: post) ↔
      NoAdjacentFree pre ∧ NoAdjacentFree post ∧
      (∀ x ∈ pre.getLast?, ¬(x.is_free = true ∧ m.is_free = true)) ∧
      (∀ y ∈ post.head?, ¬(m.is_free = true ∧ y.is_free = true)) := by
  unfold NoAdjacentFree
  rw [List.chain'_append, List.chain'_cons']
  simp only [List.head?_cons, Option.mem_def, Option.some.injEq, forall_eq']
  tauto

theorem noAdjacentFree_cons (post : List MemoryBlock) (m : MemoryBlock) :
    NoAdjacentFree (m :: post) ↔
      NoAdjacentFree post ∧ (∀ y ∈ post.head?, ¬(m.is_free = true ∧ y.is_free = true)) := by
  have := noAdjacentFree_mid [] post m
  simp only [List.nil_append, List.getLast?_nil, Option.mem_def, reduceCtorEq, false_implies,
    implies_true, true_and] at this
  rw [this]
  unfold NoAdjacentFree
  simp

theorem noAdjacentFree_snoc (pre : List MemoryBlock) (m : MemoryBlock) :
    NoAdjacentFree (pre ++ [m]) ↔
      NoAdjacentFree pre ∧ (∀ x ∈ pre.getLast?, ¬(x.is_free = true ∧ m.is_free = true)) := by
  rw [noAdjacentFree_mid]
  unfold NoAdjacentFree
  simp

theorem fits_is_free {t : MemoryBlock} {size : Nat} (h : fits t size = true) :
    t.is_free = true := by
  unfold fits at h
  simp only [Bool.and_eq_true] at h
  exact h.1

theorem noAdjacentFree_alloc_blocks (pre post : List MemoryBlock) (t : MemoryBlock)
    (size : Nat) (ht : t.is_free = true) (h : NoAdjacentFree (pre ++ t :: post)) :
    NoAdjacentFree (pre ++ alloc_blocks t size ++ post) := by
  rw [noAdjacentFree_mid] at h
  obtain ⟨hpre, hpost, _, hnext⟩ := h
  unfold alloc_blocks
  by_cases hsplit : subU (subU t.size size) BLOCK_SIZE > BLOCK_SIZE
  · simp only [hsplit, if_true, List.append_assoc, List.cons_append, List.nil_append]
    rw [noAdjacentFree_mid, noAdjacentFree_cons]
    refine ⟨hpre, ⟨hpost, ?_⟩, ?_, ?_⟩
    · intro y hy
      simpa [ht] using hnext y hy
    · intro x _
      simp
    · intro y _
      simp
  · simp only [hsplit, if_false, List.append_assoc, List.cons_append, List.nil_append]
    rw [noAdjacentFree_mid]
    refine ⟨hpre, hpost, ?_, ?_⟩
    · intro x _
      simp
    · intro y _
      simp

theorem noAdjacentFree_forward (pre2 post : List MemoryBlock) (cur : MemoryBlock)
    (hpre : NoAdjacentFree pre2)
    (hlast : ∀ x ∈ pre2.getLast?, x.is_free = false)
    (hpost : NoAdjacentFree post) :
    NoAdjacentFree (merge_forward pre2 cur post) := by
  cases post with
  | nil =>
    show NoAdjacentFree (pre2 ++ [cur])
    rw [noAdjacentFree_snoc]
    refine ⟨hpre, ?_⟩
    intro x hx
    simp [hlast x hx]
  | cons n rest =>
    have hpost2 := (noAdjacentFree_cons rest n).mp hpost
    show NoAdjacentFree
      (if n.is_free = true then pre2 ++ join cur n :: rest else pre2 ++ cur :: n :: rest)
    by_cases hn : n.is_free = true
    · rw [if_pos hn, noAdjacentFree_mid]
      refine ⟨hpre, hpost2.1, ?_, ?_⟩
      · intro x hx
        simp [hlast x hx]
      · intro y hy
        have := hpost2.2 y hy
        simp only [hn, true_and] at this
        simp [this]
    · rw [if_neg hn, noAdjacentFree_mid]
      refine ⟨hpre, hpost, ?_, ?_⟩
      · intro x hx
        simp [hlast x hx]
      · intro y hy
        simp only [List.head?_cons, Option.mem_def, Option.some.injEq] at hy
        subst hy
        simp [hn]

theorem noAdjacentFree_coalesce (pre post : List MemoryBlock) (c : MemoryBlock)
    (h : NoAdjacentFree (pre ++ c :: post)) :
    NoAdjacentFree (coalesce pre c post) := by
  rw [noAdjacentFree_mid] at h
  obtain ⟨hpre, hpost, _, _⟩ := h
  rcases List.eq_nil_or_concat pre with hnil | ⟨pre1, p, hcat⟩
  · subst hnil
    have := noAdjacentFree_forward [] post { c with is_free := true } hpre
      (by intro x hx; simp at hx) hpost
    simpa only [coalesce, List.getLast?_nil] using this
  · rw [List.concat_eq_append] at hcat
    subst hcat
    rw [noAdjacentFree_snoc] at hpre
    cases hp : p.is_free with
    | true =>
      have hlast : ∀ x ∈ pre1.getLast?, x.is_free = false := by
        intro x hx
        have := hpre.2 x hx
        simpa [hp] using this
      have := noAdjacentFree_forward pre1 post (join p { c with is_free := true }) hpre.1
        hlast hpost
      simpa only [coalesce, List.getLast?_concat, hp, if_true, List.dropLast_concat] using this
    | false =>
      have hlast : ∀ x ∈ (pre1 ++ [p]).getLast?, x.is_free = false := by
        intro x hx
        simp only [List.getLast?_concat, Option.mem_def, Option.some.injEq] at hx
        rw [← hx]
        exact hp
      have := noAdjacentFree_forward (pre1 ++ [p]) post { c with is_free := true }
        ((noAdjacentFree_snoc pre1 p).mpr hpre) hlast hpost
      simpa only [coalesce, List.getLast?_concat, hp, Bool.false_eq_true, if_false] using this

theorem noAdjacentFree_apply_call (head : List MemoryBlock) (call : Call)
    (h : NoAdjacentFree head) : NoAdjacentFree (apply_call head call) := by
  cases call with
  | allocate size algorithm =>
    show NoAdjacentFree (allocate_memory head size algorithm).head
    rcases allocate_memory_shape head size algorithm with
      ⟨hfail, _⟩ | ⟨pre, t, post, hhead, hft, _, _, hres⟩
    · rw [hfail]
      exact h
    · rw [hres]
      rw [hhead] at h
      exact noAdjacentFree_alloc_blocks pre post t size (fits_is_free hft) h
  | free a =>
    show NoAdjacentFree (free_memory head a).2
    rcases free_memory_shape head a with ⟨hres, _⟩ | ⟨pre, c, post, hhead, _, _, hcase⟩
    · rw [hres]
      exact h
    · rcases hcase with ⟨_, hres⟩ | ⟨_, hres⟩
      · rw [hres]
        exact h
      · rw [hres]
        rw [hhead] at h
        exact noAdjacentFree_coalesce pre post c h

theorem noAdjacentFree_foldl (calls : List Call) :
    ∀ head, NoAdjacentFree head → NoAdjacentFree (calls.foldl apply_call head) := by
  induction calls with
  | nil => intro head h; exact h
  | cons call rest ih =>
    intro head h
    exact ih _ (noAdjacentFree_apply_call head call h)

theorem subU_eq_sub {a b : Nat} (hba : b ≤ a) (ha : a < SIZE_MOD) : subU a b = a - b := by
  unfold subU
  have hb : b % SIZE_MOD = b := Nat.mod_eq_of_lt (lt_of_le_of_lt hba ha)
  rw [hb]
  have : a + SIZE_MOD - b = (a - b) + SIZE_MOD := by omega
  rw [this, Nat.add_mod_right]
  exact Nat.mod_eq_of_lt (by omega)

theorem addU_eq_add {a b : Nat} (h : a + b < SIZE_MOD) : addU a b = a + b := by
  unfold addU
  exact Nat.mod_eq_of_lt h

/-- The out-of-memory condition for every request below `SIZE_MAX`: with a
positive size and one of the three strategies, `allocate_memory` returns 0
exactly when some free block has `size >= requestedSize + BLOCK_SIZE` as an
exact integer, and otherwise it leaves the chain unchanged. -/
theorem allocate_memory_succeeds_iff (head : List MemoryBlock) (size : Nat)
    (algorithm : Int) (hpos : 0 < size) (hmax : size < SIZE_MAX)
    (halg : algorithm = 1 ∨ algorithm = 2 ∨ algorithm = 3) :
    ((allocate_memory head size algorithm).ret = 0 ↔
      ∃ b ∈ head, b.is_free = true ∧ size + BLOCK_SIZE ≤ b.size) ∧
    ((allocate_memory head size algorithm).ret ≠ 0 →
      (allocate_memory head size algorithm).head = head) := by
  rcases allocate_memory_shape head size algorithm with
    ⟨hfail, hwhy⟩ | ⟨pre, t, post, hhead, hft, _, _, hres⟩
  · rw [hfail]
    refine ⟨⟨fun h => ?_, fun hex => ?_⟩, fun _ => rfl⟩
    · have hneg : (-1 : Int) ≠ 0 := by decide
      exact absurd h hneg
    · obtain ⟨b, hb, hq⟩ := hex
      rcases hwhy with h0 | hno | hnone
      · omega
      · rcases halg with h | h | h
        · exact absurd h hno.1
        · exact absurd h hno.2.1
        · exact absurd h hno.2.2
      · have := (fits_iff_exact size b hmax).mpr hq
        rw [hnone b hb] at this
        exact Bool.noConfusion this
  · rw [hres]
    refine ⟨⟨fun _ => ?_, fun _ => rfl⟩, fun h => absurd rfl h⟩
    refine ⟨t, ?_, (fits_iff_exact size t hmax).mp hft⟩
    rw [hhead]
    simp

/-- Witness for `allocate_memory_succeeds_iff`: a request of 100 on the
initial state. -/
theorem allocate_memory_succeeds_iff_witness :
    ((allocate_memory initialize_memory 100 1).ret = 0 ↔
      ∃ b ∈ initialize_memory, b.is_free = true ∧ 100 + BLOCK_SIZE ≤ b.size) ∧
    ((allocate_memory initialize_memory 100 1).ret ≠ 0 →
      (allocate_memory initialize_memory 100 1).head = initialize_memory) :=
  allocate_memory_succeeds_iff initialize_memory 100 1 (by decide) (by decide) (Or.inl rfl)

theorem pool_sum_append (l₁ l₂ : List MemoryBlock) :
    pool_sum (l₁ ++ l₂) = pool_sum l₁ + pool_sum l₂ := by
  simp [pool_sum]

theorem pool_sum_cons (b : MemoryBlock) (l : List MemoryBlock) :
    pool_sum (b :: l) = b.size + BLOCK_SIZE + pool_sum l := by
  simp [pool_sum]

theorem pool_sum_nil : pool_sum [] = 0 := rfl

theorem pool_sum_alloc_blocks (t : MemoryBlock) (size : Nat)
    (hfit : size + BLOCK_SIZE ≤ t.size) (ht : t.size < SIZE_MOD) :
    pool_sum (alloc_blocks t size) = t.size + BLOCK_SIZE := by
  have h1 : subU t.size size = t.size - size :=
    subU_eq_sub (by omega) ht
  have h2 : subU (t.size - size) BLOCK_SIZE = t.size - size - BLOCK_SIZE :=
    subU_eq_sub (by omega) (by omega)
  unfold alloc_blocks
  rw [h1, h2]
  by_cases hsplit : t.size - size - BLOCK_SIZE > BLOCK_SIZE
  · rw [if_pos hsplit]
    simp only [pool_sum_cons, pool_sum_nil]
    omega
  · rw [if_neg hsplit]
    simp only [pool_sum_cons, pool_sum_nil]
    omega

theorem join_size (a b : MemoryBlock) (h : a.size + b.size + BLOCK_SIZE < SIZE_MOD) :
    (join a b).size = a.size + b.size + BLOCK_SIZE := by
  unfold join
  show addU (addU a.size b.size) BLOCK_SIZE = _
  have h1 : addU a.size b.size = a.size + b.size := addU_eq_add (by omega)
  rw [h1, addU_eq_add h]

theorem pool_sum_merge_forward (pre post : List MemoryBlock) (cur : MemoryBlock)
    (h : pool_sum (pre ++ cur :: post) < SIZE_MOD) :
    pool_sum (merge_forward pre cur post) = pool_sum (pre ++ cur :: post) := by
  cases post with
  | nil => rfl
  | cons n rest =>
    show pool_sum (if n.is_free = true then pre ++ join cur n :: rest
      else pre ++ cur :: n :: rest) = _
    by_cases hn : n.is_free = true
    · rw [if_pos hn]
      simp only [pool_sum_append, pool_sum_cons] at h ⊢
      rw [join_size cur n (by omega)]
      omega
    · rw [if_neg hn]

theorem pool_sum_coalesce (pre post : List MemoryBlock) (c : MemoryBlock)
    (h : pool_sum (pre ++ c :: post) < SIZE_MOD) :
    pool_sum (coalesce pre c post) = pool_sum (pre ++ c :: post) := by
  have hc1 : pool_sum (pre ++ { c with is_free := true } :: post) =
      pool_sum (pre ++ c :: post) := by
    simp only [pool_sum_append, pool_sum_cons]
  rcases List.eq_nil_or_concat pre with hnil | ⟨pre1, p, hcat⟩
  · subst hnil
    simp only [coalesce, List.getLast?_nil]
    rw [pool_sum_merge_forward _ _ _ (by rw [hc1]; exact h), hc1]
  · rw [List.concat_eq_append] at hcat
    subst hcat
    cases hp : p.is_free with
    | true =>
      simp only [coalesce, List.getLast?_concat, hp, if_true, List.dropLast_concat]
      have hsum : pool_sum (pre1 ++ join p { c with is_free := true } :: post) =
          pool_sum (pre1 ++ [p] ++ c :: post) := by
        simp only [pool_sum_append, pool_sum_cons, pool_sum_nil] at h ⊢
        rw [join_size p _ (by simp only []; omega)]
        simp only []
        omega
      rw [pool_sum_merge_forward _ _ _ (by rw [hsum]; exact h), hsum]
    | false =>
      simp only [coalesce, List.getLast?_concat, hp, Bool.false_eq_true, if_false]
      rw [pool_sum_merge_forward _ _ _ (by rw [hc1]; exact h), hc1]

theorem size_le_pool_sum {head : List MemoryBlock} {b : MemoryBlock} (hb : b ∈ head) :
    b.size + BLOCK_SIZE ≤ pool_sum head := by
  induction head with
  | nil => exact absurd hb (List.not_mem_nil b)
  | cons x rest ih =>
    rw [pool_sum_cons]
    rcases List.mem_cons.mp hb with rfl | hb
    · omega
    · have := ih hb
      omega

theorem pool_sum_apply_call (head : List MemoryBlock) (call : Call)
    (hbelow : Call.below_max call = true) (h : pool_sum head = MEMORY_SIZE) :
    pool_sum (apply_call head call) = MEMORY_SIZE := by
  have hsmall : MEMORY_SIZE < SIZE_MOD := by decide
  cases call with
  | allocate size algorithm =>
    show pool_sum (allocate_memory head size algorithm).head = MEMORY_SIZE
    have hmax : size < SIZE_MAX := by simpa [Call.below_max] using hbelow
    rcases allocate_memory_shape head size algorithm with
      ⟨hfail, _⟩ | ⟨pre, t, post, hhead, hft, _, _, hres⟩
    · rw [hfail]
      exact h
    · rw [hres]
      have hfit := ((fits_iff_exact size t hmax).mp hft).2
      have ht : t.size + BLOCK_SIZE ≤ pool_sum head :=
        size_le_pool_sum (by rw [hhead]; simp)
      rw [hhead] at h
      simp only [pool_sum_append, pool_sum_cons] at h ⊢
      rw [pool_sum_alloc_blocks t size hfit (by omega)]
      omega
  | free a =>
    show pool_sum (free_memory head a).2 = MEMORY_SIZE
    rcases free_memory_shape head a with ⟨hres, _⟩ | ⟨pre, c, post, hhead, _, _, hcase⟩
    · rw [hres]
      exact h
    · rcases hcase with ⟨_, hres⟩ | ⟨_, hres⟩
      · rw [hres]
        exact h
      · rw [hres]
        rw [hhead] at h
        rw [pool_sum_coalesce pre post c (by omega)]
        exact h

theorem pool_sum_foldl (calls : List Call) :
    ∀ head, calls.all Call.below_max = true → pool_sum head = MEMORY_SIZE →
      pool_sum (calls.foldl apply_call head) = MEMORY_SIZE := by
  induction calls with
  | nil => intro head _ h; exact h
  | cons call rest ih =>
    intro head hall h
    simp only [List.all_cons, Bool.and_eq_true] at hall
    exact ih _ hall.2 (pool_sum_apply_call head call hall.1 h)

/-- Conservation for every sequence of calls in which no request is
`SIZE_MAX`: the sum of `size + BLOCK_SIZE` over the chain, as an exact integer,
is `MEMORY_SIZE`. -/
theorem conservation_below_size_max (calls : List Call)
    (hbelow : calls.all Call.below_max = true) :
    pool_sum (run_calls calls) = MEMORY_SIZE :=
  pool_sum_foldl calls initialize_memory hbelow (by decide)

/-- Witness for `conservation_below_size_max`: the calls of `order_calls`. -/
theorem conservation_below_size_max_witness :
    order_calls.all Call.below_max = true ∧ pool_sum (run_calls order_calls) = MEMORY_SIZE :=
  ⟨by decide, conservation_below_size_max order_calls (by decide)⟩

/-! ## Evaluations of the code where it departs from the specification -/

/-- C1 (Conservation), evaluated at the request `SIZE_MAX`: after
`initialize_memory` and `allocate_memory(SIZE_MAX, 1)` the test
`size + BLOCK_SIZE` has wrapped to 0, the only block is split, and the sum of
`size + BLOCK_SIZE` over the chain is `2 ^ 64 + 640` instead of 640. -/
theorem conservation_lost_at_size_max :
    Reachable (run_calls [Call.allocate SIZE_MAX 1]) ∧
    run_calls [Call.allocate SIZE_MAX 1] =
      [{ start_addr := 0, size := SIZE_MAX, is_free := false },
       { start_addr := SIZE_MAX, size := 639, is_free := true }] ∧
    pool_sum (run_calls [Call.allocate SIZE_MAX 1]) = SIZE_MOD + MEMORY_SIZE ∧
    pool_sum (run_calls [Call.allocate SIZE_MAX 1]) ≠ MEMORY_SIZE :=
  ⟨⟨_, by decide, rfl⟩, by decide, by decide, by decide⟩

/-- C2 (Round trip), evaluated in the reachable state after `shadow_calls`:
`allocate_memory(100, 1)` succeeds on the block at position 3, whose start
address is 6, but `free_memory(6)` stops at the free block at position 1 that
carries the same address and reports a double free, so the chain is not the
one before the allocation. -/
theorem round_trip_lost_on_shared_address :
    Reachable (run_calls shadow_calls) ∧
    run_calls shadow_calls =
      [{ start_addr := 0, size := 6, is_free := false },
       { start_addr := 6, size := 2, is_free := true },
       { start_addr := 5, size := 1, is_free := false },
       { start_addr := 6, size := 627, is_free := true }] ∧
    (select_target (run_calls shadow_calls) 100 1).1 = some 3 ∧
    allocate_memory (run_calls shadow_calls) 100 1 =
      ⟨0, some 6,
        [{ start_addr := 0, size := 6, is_free := false },
         { start_addr := 6, size := 2, is_free := true },
         { start_addr := 5, size := 1, is_free := false },
         { start_addr := 6, size := 100, is_free := false },
         { start_addr := 106, size := 526, is_free := true }]⟩ ∧
    free_memory (allocate_memory (run_calls shadow_calls) 100 1).head 6 =
      (FreeResult.already_free, (allocate_memory (run_calls shadow_calls) 100 1).head) ∧
    (free_memory (allocate_memory (run_calls shadow_calls) 100 1).head 6).2 ≠
      run_calls shadow_calls :=
  ⟨⟨_, by decide, rfl⟩, by decide, by decide, by decide, by decide, by decide⟩

/-- C4 (Address chaining), evaluated after `initialize_memory` and
`allocate_memory(100, 1)`: `split_MemoryBlock` gives the new block the start
address `0 + 100`, so the chain is `{0,100,allocated}, {100,538,free}` and the
second block does not start at `0 + 100 + BLOCK_SIZE`. -/
theorem address_chain_lost_by_split :
    Reachable (run_calls [Call.allocate 100 1]) ∧
    run_calls [Call.allocate 100 1] =
      [{ start_addr := 0, size := 100, is_free := false },
       { start_addr := 100, size := 538, is_free := true }] ∧
    ¬ AddressChained (run_calls [Call.allocate 100 1]) :=
  ⟨⟨_, by decide, rfl⟩, by decide, by decide⟩

/-- C5 (Address order and uniqueness), evaluated in the reachable state after
`order_calls`: the chain is `{0,4,allocated}, {4,2,free}, {4,1,allocated},
{5,629,free}`; the second and third block share the start address 4, so the
addresses are not strictly increasing. -/
theorem address_order_lost_after_merge :
    Reachable (run_calls order_calls) ∧
    run_calls order_calls =
      [{ start_addr := 0, size := 4, is_free := false },
       { start_addr := 4, size := 2, is_free := true },
       { start_addr := 4, size := 1, is_free := false },
       { start_addr := 5, size := 629, is_free := true }] ∧
    ¬ AddressIncreasing (run_calls order_calls) ∧
    ¬ ((run_calls order_calls).map MemoryBlock.start_addr).Nodup :=
  ⟨⟨_, by decide, rfl⟩, by decide, by decide, by decide⟩

/-- C6 (Scenario), evaluated call by call: `allocate_memory(100, 1)` leaves
`{0,100,allocated}, {100,538,free}` (the scenario has the free block at 101);
`allocate_memory(50, 2)` reports address 100 and leaves a free block at 150
(the scenario has 101 and 152); `free_memory(0)` succeeds; `free_memory(101)`
finds no block and changes nothing, whereas `free_memory(100)` restores the
initial chain. -/
theorem scenario_trace :
    allocate_memory initialize_memory 100 1 =
      ⟨0, some 0,
        [{ start_addr := 0, size := 100, is_free := false },
         { start_addr := 100, size := 538, is_free := true }]⟩ ∧
    allocate_memory (run_calls [Call.allocate 100 1]) 50 2 =
      ⟨0, some 100,
        [{ start_addr := 0, size := 100, is_free := false },
         { start_addr := 100, size := 50, is_free := false },
         { start_addr := 150, size := 487, is_free := true }]⟩ ∧
    free_memory (run_calls [Call.allocate 100 1, Call.allocate 50 2]) 0 =
      (FreeResult.freed,
        [{ start_addr := 0, size := 100, is_free := true },
         { start_addr := 100, size := 50, is_free := false },
         { start_addr := 150, size := 487, is_free := true }]) ∧
    free_memory (run_calls [Call.allocate 100 1, Call.allocate 50 2, Call.free 0]) 101 =
      (FreeResult.not_found,
        [{ start_addr := 0, size := 100, is_free := true },
         { start_addr := 100, size := 50, is_free := false },
         { start_addr := 150, size := 487, is_free := true }]) ∧
    free_memory (run_calls [Call.allocate 100 1, Call.allocate 50 2, Call.free 0]) 100 =
      (FreeResult.freed, initialize_memory) :=
  ⟨by decide, by decide, by decide, by decide, by decide⟩

/-- C10 (Out-of-memory condition), evaluated at the request `SIZE_MAX` on the
initial state: no block has `size >= SIZE_MAX + BLOCK_SIZE` as an exact
integer and the request exceeds the pool capacity, yet `allocate_memory`
returns 0 and the chain is changed, because `size + BLOCK_SIZE` wraps to 0 in
the test of the search. -/
theorem out_of_memory_missed_at_size_max :
    (∀ b ∈ initialize_memory, ¬(b.is_free = true ∧ SIZE_MAX + BLOCK_SIZE ≤ b.size)) ∧
    MEMORY_SIZE < SIZE_MAX ∧
    addU SIZE_MAX BLOCK_SIZE = 0 ∧
    (allocate_memory initialize_memory SIZE_MAX 1).ret = 0 ∧
    (allocate_memory initialize_memory SIZE_MAX 2).ret = 0 ∧
    (allocate_memory initialize_memory SIZE_MAX 3).ret = 0 ∧
    (allocate_memory initialize_memory SIZE_MAX 1).head ≠ initialize_memory :=
  ⟨by decide, by decide, by decide, by decide, by decide, by decide, by decide⟩

/-! ## Failing calls -/

theorem free_memory_mid_free (a : Nat) (pre post : List MemoryBlock) (c : MemoryBlock)
    (hpre : ∀ b ∈ pre, b.start_addr ≠ a) (hc : c.start_addr = a)
    (hfree : c.is_free = true) :
    free_memory (pre ++ c :: post) a = (FreeResult.already_free, pre ++ c :: post) := by
  unfold free_memory
  rw [find_loop_mid a pre post c hpre hc 0]
  simp only [Nat.zero_add, is_free_at_mid, hfree, if_true]

theorem free_memory_not_found (a : Nat) (head : List MemoryBlock)
    (h : ∀ b ∈ head, b.start_addr ≠ a) :
    free_memory head a = (FreeResult.not_found, head) := by
  unfold free_memory
  rw [(find_loop_none a head 0).mpr h]

/-- C16 (Invalid requests). For every block list, `allocate_memory(0, algorithm)`
fails for every algorithm, and `allocate_memory(size, algorithm)` fails for
every size when `algorithm` is none of 1, 2, 3; in both cases the return value
is -1 and the chain is left unchanged. -/
theorem invalid_request_rejected (head : List MemoryBlock) (size : Nat) (algorithm : Int) :
    allocate_memory head 0 algorithm = ⟨-1, none, head⟩ ∧
    (algorithm ≠ 1 → algorithm ≠ 2 → algorithm ≠ 3 →
      allocate_memory head size algorithm = ⟨-1, none, head⟩) := by
  constructor
  · unfold allocate_memory
    rw [if_pos (le_refl 0)]
  · intro h1 h2 h3
    unfold allocate_memory select_target
    by_cases hsz : size ≤ 0
    · rw [if_pos hsz]
    · rw [if_neg hsz, if_neg h1, if_neg h2, if_neg h3]

/-- Witness for C16: size 0 with first fit, and size 5 with the unknown
strategy code 7, on the initial chain. -/
theorem invalid_request_rejected_witness :
    allocate_memory initialize_memory 0 1 = ⟨-1, none, initialize_memory⟩ ∧
    allocate_memory initialize_memory 5 7 = ⟨-1, none, initialize_memory⟩ :=
  ⟨(invalid_request_rejected initialize_memory 5 1).1,
   (invalid_request_rejected initialize_memory 5 7).2 (by decide) (by decide) (by decide)⟩

/-- C11 (Idempotent failure). For every block list and every argument: when no
block passes the test of the search, `allocate_memory` returns -1 and the
chain is the one before the call; whenever `allocate_memory` does not return 0
the chain is the one before the call; when no block has the given address
`free_memory` reports it and leaves the chain as it was; when the first block
with the given address is free `free_memory` reports a double free and leaves
the chain as it was; and whenever `free_memory` does not release a block the
chain is the one before the call. -/
theorem failed_call_keeps_chain (head : List MemoryBlock) (size : Nat) (algorithm : Int)
    (start_addr : Nat) :
    ((∀ b ∈ head, fits b size = false) →
      allocate_memory head size algorithm = ⟨-1, none, head⟩) ∧
    ((allocate_memory head size algorithm).ret ≠ 0 →
      (allocate_memory head size algorithm).head = head) ∧
    ((∀ b ∈ head, b.start_addr ≠ start_addr) →
      free_memory head start_addr = (FreeResult.not_found, head)) ∧
    (∀ (pre post : List MemoryBlock) (c : MemoryBlock), head = pre ++ c :: post →
      (∀ b ∈ pre, b.start_addr ≠ start_addr) → c.start_addr = start_addr →
      c.is_free = true →
      free_memory head start_addr = (FreeResult.already_free, head)) ∧
    ((free_memory head start_addr).1 ≠ FreeResult.freed →
      (free_memory head start_addr).2 = head) := by
  refine ⟨?_, ?_, free_memory_not_found start_addr head, ?_, ?_⟩
  · intro hnone
    rcases allocate_memory_shape head size algorithm with
      ⟨hfail, _⟩ | ⟨pre, t, post, hhead, hft, _, _, _⟩
    · exact hfail
    · have hmem : t ∈ head := by rw [hhead]; simp
      rw [hnone t hmem] at hft
      exact Bool.noConfusion hft
  · intro hret
    rcases allocate_memory_shape head size algorithm with
      ⟨hfail, _⟩ | ⟨pre, t, post, _, _, _, _, hres⟩
    · rw [hfail]
    · rw [hres] at hret
      exact absurd rfl hret
  · intro pre post c hhead hpre hc hfree
    rw [hhead]
    exact free_memory_mid_free start_addr pre post c hpre hc hfree
  · intro hne
    rcases free_memory_shape head start_addr with
      ⟨hres, _⟩ | ⟨pre, c, post, _, _, _, ⟨_, hres⟩ | ⟨_, hres⟩⟩
    · rw [hres]
    · rw [hres]
    · rw [hres] at hne
      exact absurd rfl hne

/-- Witness for C11: a request of 1000 and the release of address 999 on the
initial chain, and a second release of address 0 there. -/
theorem failed_call_keeps_chain_witness :
    allocate_memory initialize_memory 1000 1 = ⟨-1, none, initialize_memory⟩ ∧
    (allocate_memory initialize_memory 1000 1).head = initialize_memory ∧
    free_memory initialize_memory 999 = (FreeResult.not_found, initialize_memory) ∧
    free_memory initialize_memory 0 = (FreeResult.already_free, initialize_memory) ∧
    (free_memory initialize_memory 0).2 = initialize_memory :=
  ⟨(failed_call_keeps_chain initialize_memory 1000 1 999).1 (by decide),
   (failed_call_keeps_chain initialize_memory 1000 1 999).2.1 (by decide),
   (failed_call_keeps_chain initialize_memory 1000 1 999).2.2.1 (by decide),
   (failed_call_keeps_chain initialize_memory 1000 1 0).2.2.2.1 []
     [] { start_addr := 0, size := 639, is_free := true } rfl (by decide) rfl rfl,
   (failed_call_keeps_chain initialize_memory 1000 1 0).2.2.2.2 (by decide)⟩

/-! ## Outcomes of `free_memory` -/

theorem merge_forward_at (pre post : List MemoryBlock) (cur : MemoryBlock) :
    ∃ m, (merge_forward pre cur post)[pre.length]? = some m ∧ m.is_free = cur.is_free ∧
      (merge_forward pre cur post).take pre.length = pre := by
  cases post with
  | nil =>
    refine ⟨cur, ?_, rfl, ?_⟩
    · show (pre ++ [cur])[pre.length]? = some cur
      exact getElem?_mid pre [] cur
    · show (pre ++ [cur]).take pre.length = pre
      simp
  | cons n rest =>
    by_cases hn : n.is_free = true
    · have hval : merge_forward pre cur (n :: rest) = pre ++ join cur n :: rest := by
        show (if n.is_free = true then _ else _) = _
        rw [if_pos hn]
      rw [hval]
      exact ⟨join cur n, getElem?_mid pre rest _, rfl, by simp⟩
    · have hval : merge_forward pre cur (n :: rest) = pre ++ cur :: n :: rest := by
        show (if n.is_free = true then _ else _) = _
        rw [if_neg hn]
      rw [hval]
      exact ⟨cur, getElem?_mid pre _ _, rfl, by simp⟩

theorem coalesce_free_block (pre post : List MemoryBlock) (c : MemoryBlock) :
    ∃ k m, (k = pre.length ∨ k + 1 = pre.length) ∧
      (coalesce pre c post)[k]? = some m ∧ m.is_free = true ∧
      (coalesce pre c post).take k = (pre ++ c :: post).take k := by
  rcases List.eq_nil_or_concat pre with hnil | ⟨pre1, p, hcat⟩
  · subst hnil
    obtain ⟨m, hm, hfree, htake⟩ := merge_forward_at [] post { c with is_free := true }
    refine ⟨0, m, Or.inl rfl, ?_, hfree, by simp⟩
    simpa only [coalesce, List.getLast?_nil] using hm
  · rw [List.concat_eq_append] at hcat
    subst hcat
    cases hp : p.is_free with
    | true =>
      obtain ⟨m, hm, hfree, htake⟩ :=
        merge_forward_at pre1 post (join p { c with is_free := true })
      have hval : coalesce (pre1 ++ [p]) c post =
          merge_forward pre1 (join p { c with is_free := true }) post := by
        simp only [coalesce, List.getLast?_concat, hp, if_true, List.dropLast_concat]
      refine ⟨pre1.length, m, Or.inr (by simp), ?_, ?_, ?_⟩
      · rw [hval]; exact hm
      · rw [hfree]; exact hp
      · rw [hval, htake]; simp
    | false =>
      obtain ⟨m, hm, hfree, htake⟩ :=
        merge_forward_at (pre1 ++ [p]) post { c with is_free := true }
      have hval : coalesce (pre1 ++ [p]) c post =
          merge_forward (pre1 ++ [p]) { c with is_free := true } post := by
        simp only [coalesce, List.getLast?_concat, hp, Bool.false_eq_true, if_false]
      refine ⟨(pre1 ++ [p]).length, m, Or.inl rfl, ?_, hfree, ?_⟩
      · rw [hval]; exact hm
      · rw [hval, htake, List.take_left' rfl]

/-- C15 (Free error conditions). For every block list and every address:
`free_memory` reports block-not-found exactly when no block of the chain has
that start address; it reports a double free exactly when the first block of
the chain with that start address is free; it releases a block exactly when
that first block is allocated; and after a release a free block stands at the
position of that block, or at the position before it when the predecessor
absorbed it, with every block before that position untouched. -/
theorem free_memory_outcomes (head : List MemoryBlock) (start_addr : Nat) :
    ((free_memory head start_addr).1 = FreeResult.not_found ↔
      ∀ b ∈ head, b.start_addr ≠ start_addr) ∧
    ((free_memory head start_addr).1 = FreeResult.already_free ↔
      ∃ pre c post, head = pre ++ c :: post ∧ (∀ b ∈ pre, b.start_addr ≠ start_addr) ∧
        c.start_addr = start_addr ∧ c.is_free = true) ∧
    ((free_memory head start_addr).1 = FreeResult.freed ↔
      ∃ pre c post, head = pre ++ c :: post ∧ (∀ b ∈ pre, b.start_addr ≠ start_addr) ∧
        c.start_addr = start_addr ∧ c.is_free = false) ∧
    (∀ (pre post : List MemoryBlock) (c : MemoryBlock), head = pre ++ c :: post →
      (∀ b ∈ pre, b.start_addr ≠ start_addr) → c.start_addr = start_addr →
      c.is_free = false →
      ∃ k m, (k = pre.length ∨ k + 1 = pre.length) ∧
        (free_memory head start_addr).2[k]? = some m ∧ m.is_free = true ∧
        (free_memory head start_addr).2.take k = head.take k) := by
  refine ⟨?_, ?_, ?_, ?_⟩
  · constructor
    · intro h
      rcases free_memory_shape head start_addr with
        ⟨_, hall⟩ | ⟨pre, c, post, _, _, _, ⟨_, hres⟩ | ⟨_, hres⟩⟩
      · exact hall
      · rw [hres] at h
        exact FreeResult.noConfusion h
      · rw [hres] at h
        exact FreeResult.noConfusion h
    · intro hall
      rw [free_memory_not_found start_addr head hall]
  · constructor
    · intro h
      rcases free_memory_shape head start_addr with
        ⟨hres, _⟩ | ⟨pre, c, post, hhead, hpre, hc, ⟨hfree, _⟩ | ⟨_, hres⟩⟩
      · rw [hres] at h
        exact FreeResult.noConfusion h
      · exact ⟨pre, c, post, hhead, hpre, hc, hfree⟩
      · rw [hres] at h
        exact FreeResult.noConfusion h
    · rintro ⟨pre, c, post, hhead, hpre, hc, hfree⟩
      rw [hhead, free_memory_mid_free start_addr pre post c hpre hc hfree]
  · constructor
    · intro h
      rcases free_memory_shape head start_addr with
        ⟨hres, _⟩ | ⟨pre, c, post, hhead, hpre, hc, ⟨_, hres⟩ | ⟨hfree, _⟩⟩
      · rw [hres] at h
        exact FreeResult.noConfusion h
      · rw [hres] at h
        exact FreeResult.noConfusion h
      · exact ⟨pre, c, post, hhead, hpre, hc, hfree⟩
    · rintro ⟨pre, c, post, hhead, hpre, hc, hfree⟩
      rw [hhead, free_memory_mid start_addr pre post c hpre hc hfree]
  · intro pre post c hhead hpre hc hfree
    rw [hhead, free_memory_mid start_addr pre post c hpre hc hfree]
    exact coalesce_free_block pre post c

/-- Witness for C15: on the initial chain no block has address 999, so
`free_memory(999)` reports block-not-found; after `allocate_memory(100, 1)`
the block at address 0 is allocated and `free_memory(0)` leaves a free block
at position 0. -/
theorem free_memory_outcomes_witness :
    (free_memory initialize_memory 999).1 = FreeResult.not_found ∧
    ∃ k m, (k = ([] : List MemoryBlock).length ∨ k + 1 = ([] : List MemoryBlock).length) ∧
      (free_memory (run_calls [Call.allocate 100 1]) 0).2[k]? = some m ∧ m.is_free = true ∧
      (free_memory (run_calls [Call.allocate 100 1]) 0).2.take k =
        (run_calls [Call.allocate 100 1]).take k :=
  ⟨(free_memory_outcomes initialize_memory 999).1.mpr (by decide),
   (free_memory_outcomes (run_calls [Call.allocate 100 1]) 0).2.2.2 []
     [{ start_addr := 100, size := 538, is_free := true }]
     { start_addr := 0, size := 100, is_free := false } (by decide) (by decide) rfl rfl⟩

/-! ## Split on allocation -/

theorem leftover_exact (t : MemoryBlock) (size : Nat) (hft : fits t size = true)
    (hmax : size < SIZE_MAX) (ht : t.size < SIZE_MOD) :
    subU (subU t.size size) BLOCK_SIZE = t.size - size - BLOCK_SIZE ∧
    size + BLOCK_SIZE ≤ t.size := by
  have hfit := ((fits_iff_exact size t hmax).mp hft).2
  have h1 : subU t.size size = t.size - size := subU_eq_sub (by omega) ht
  have h2 : subU (t.size - size) BLOCK_SIZE = t.size - size - BLOCK_SIZE :=
    subU_eq_sub (by omega) (by omega)
  rw [h1, h2]
  exact ⟨rfl, hfit⟩

theorem allocate_memory_at (head : List MemoryBlock) (size : Nat) (algorithm : Int)
    (i : Nat) (t : MemoryBlock)
    (hret : (allocate_memory head size algorithm).ret = 0)
    (hsel : (select_target head size algorithm).1 = some i)
    (ht : head[i]? = some t) :
    fits t size = true ∧
    allocate_memory head size algorithm =
      ⟨0, some t.start_addr, head.take i ++ alloc_blocks t size ++ head.drop (i + 1)⟩ := by
  rcases allocate_memory_shape head size algorithm with
    ⟨hfail, _⟩ | ⟨pre, t1, post, hhead, hft, _, hsel1, hres⟩
  · rw [hfail] at hret
    have hneg : (-1 : Int) ≠ 0 := by decide
    exact absurd hret hneg
  · rw [hsel1] at hsel
    have hi : pre.length = i := Option.some.inj hsel
    subst hi
    rw [hhead, getElem?_mid] at ht
    have htt : t1 = t := Option.some.inj ht
    subst htt
    refine ⟨hft, ?_⟩
    rw [hres, hhead]
    simp

/-- C13 (Split postcondition). For every block list and every successful
`allocate_memory(size, algorithm)` whose selected block `t`, at position `i`,
has a leftover `t.size - size - BLOCK_SIZE` (the expression of the code, in
`size_t`) greater than `BLOCK_SIZE`: the chain after the call is the chain
before it with `t` replaced by two blocks, first `t` itself with its address,
size `size` and allocated, then a new free block whose size is the leftover,
so the new block stands between the target and the target's former successor,
every other block is unchanged and the chain has one block more.  For every
request below `SIZE_MAX` the leftover is the exact difference. -/
theorem split_postcondition (head : List MemoryBlock) (size : Nat) (algorithm : Int)
    (i : Nat) (t : MemoryBlock)
    (hret : (allocate_memory head size algorithm).ret = 0)
    (hsel : (select_target head size algorithm).1 = some i)
    (ht : head[i]? = some t)
    (hleft : subU (subU t.size size) BLOCK_SIZE > BLOCK_SIZE) :
    (allocate_memory head size algorithm).head =
      head.take i ++
        { start_addr := t.start_addr, size := size, is_free := false } ::
        { start_addr := addU t.start_addr size
          size := subU (subU t.size size) BLOCK_SIZE
          is_free := true } :: head.drop (i + 1) ∧
    (allocate_memory head size algorithm).head.length = head.length + 1 ∧
    (allocate_memory head size algorithm).addr = some t.start_addr ∧
    (size < SIZE_MAX → t.size < SIZE_MOD →
      subU (subU t.size size) BLOCK_SIZE = t.size - size - BLOCK_SIZE ∧
      size + BLOCK_SIZE ≤ t.size) := by
  obtain ⟨hft, hres⟩ := allocate_memory_at head size algorithm i t hret hsel ht
  have hi : i < head.length := lt_length_of_getElem? ht
  have hblocks : alloc_blocks t size =
      [{ start_addr := t.start_addr, size := size, is_free := false },
       { start_addr := addU t.start_addr size
         size := subU (subU t.size size) BLOCK_SIZE
         is_free := true }] := by
    unfold alloc_blocks
    rw [if_pos hleft]
  rw [hres, hblocks]
  refine ⟨by simp, ?_, rfl, fun hmax hsmall => leftover_exact t size hft hmax hsmall⟩
  simp only [List.length_append, List.length_take, List.length_cons, List.length_nil,
    List.length_drop]
  omega

/-- Witness for C13: `allocate_memory(100, 1)` on the initial chain splits the
block of size 639 into an allocated block of size 100 and a free block of
size 538. -/
theorem split_postcondition_witness :
    (allocate_memory initialize_memory 100 1).head =
      initialize_memory.take 0 ++
        { start_addr := 0, size := 100, is_free := false } ::
        { start_addr := addU 0 100
          size := subU (subU 639 100) BLOCK_SIZE
          is_free := true } :: initialize_memory.drop (0 + 1) ∧
    (allocate_memory initialize_memory 100 1).head.length = initialize_memory.length + 1 ∧
    (allocate_memory initialize_memory 100 1).addr = some 0 ∧
    (100 < SIZE_MAX → 639 < SIZE_MOD →
      subU (subU 639 100) BLOCK_SIZE = 639 - 100 - BLOCK_SIZE ∧ 100 + BLOCK_SIZE ≤ 639) :=
  split_postcondition initialize_memory 100 1 0
    { start_addr := 0, size := 639, is_free := true } (by decide) (by decide) (by decide)
    (by decide)

/-- C14 (Split threshold). For every block list and every successful
`allocate_memory(size, algorithm)` with selected block `t` at position `i` and
leftover `t.size - size - BLOCK_SIZE` (the expression of the code, in
`size_t`): the chain gains a block exactly when the leftover is strictly
greater than `BLOCK_SIZE`; when the leftover is at most `BLOCK_SIZE`, the
boundary `leftover = BLOCK_SIZE` included, the chain keeps its length, `t`
keeps its size and address and becomes allocated, and every other block is
unchanged.  For every request below `SIZE_MAX` the leftover is the exact
difference. -/
theorem split_threshold (head : List MemoryBlock) (size : Nat) (algorithm : Int)
    (i : Nat) (t : MemoryBlock)
    (hret : (allocate_memory head size algorithm).ret = 0)
    (hsel : (select_target head size algorithm).1 = some i)
    (ht : head[i]? = some t) :
    ((allocate_memory head size algorithm).head.length = head.length + 1 ↔
      subU (subU t.size size) BLOCK_SIZE > BLOCK_SIZE) ∧
    (subU (subU t.size size) BLOCK_SIZE ≤ BLOCK_SIZE →
      (allocate_memory head size algorithm).head =
        head.take i ++
          { start_addr := t.start_addr, size := t.size, is_free := false } ::
          head.drop (i + 1) ∧
      (allocate_memory head size algorithm).head.length = head.length) ∧
    (size < SIZE_MAX → t.size < SIZE_MOD →
      subU (subU t.size size) BLOCK_SIZE = t.size - size - BLOCK_SIZE ∧
      size + BLOCK_SIZE ≤ t.size) := by
  obtain ⟨hft, hres⟩ := allocate_memory_at head size algorithm i t hret hsel ht
  have hi : i < head.length := lt_length_of_getElem? ht
  have hlen : (allocate_memory head size algorithm).head.length =
      head.length - 1 + (alloc_blocks t size).length := by
    rw [hres]
    simp only [List.length_append, List.length_take, List.length_drop]
    omega
  by_cases hleft : subU (subU t.size size) BLOCK_SIZE > BLOCK_SIZE
  · have hblocks : (alloc_blocks t size).length = 2 := by
      unfold alloc_blocks
      rw [if_pos hleft]
      rfl
    refine ⟨⟨fun _ => hleft, fun _ => by rw [hlen, hblocks]; omega⟩, ?_,
      fun hmax hsmall => leftover_exact t size hft hmax hsmall⟩
    intro hle
    omega
  · have hblocks : alloc_blocks t size = [{ t with is_free := false }] := by
      unfold alloc_blocks
      rw [if_neg hleft]
    refine ⟨⟨fun h => ?_, fun h => absurd h hleft⟩, ?_,
      fun hmax hsmall => leftover_exact t size hft hmax hsmall⟩
    · rw [hlen, hblocks] at h
      simp only [List.length_singleton] at h
      omega
    · intro _
      constructor
      · rw [hres, hblocks]
        simp
      · rw [hlen, hblocks]
        simp only [List.length_singleton]
        omega

/-- Witness for C14: `allocate_memory(637, 1)` on the initial chain has the
leftover `639 - 637 - 1 = 1 = BLOCK_SIZE`; no block is added and the block
keeps its size 639. -/
theorem split_threshold_witness :
    subU (subU 639 637) BLOCK_SIZE = BLOCK_SIZE ∧
    (allocate_memory initialize_memory 637 1).head =
      initialize_memory.take 0 ++
        { start_addr := 0, size := 639, is_free := false } ::
        initialize_memory.drop (0 + 1) ∧
    (allocate_memory initialize_memory 637 1).head.length = initialize_memory.length :=
  ⟨by decide,
   (split_threshold initialize_memory 637 1 0
      { start_addr := 0, size := 639, is_free := true } (by decide) (by decide)
      (by decide)).2.1 (by decide)⟩

/-! ## Coalescing on release -/

theorem addU_addU (a b c : Nat) : addU (addU a b) c = (a + b + c) % SIZE_MOD := by
  unfold addU
  exact Nat.mod_add_mod (a + b) SIZE_MOD c

theorem merge_forward_keep (pre post : List MemoryBlock) (cur : MemoryBlock)
    (h : ∀ n ∈ post.head?, n.is_free = false) :
    merge_forward pre cur post = pre ++ cur :: post := by
  cases post with
  | nil => rfl
  | cons n rest =>
    have hn : ¬ (n.is_free = true) := by
      rw [h n (by simp)]
      exact Bool.false_ne_true
    show (if n.is_free = true then _ else _) = _
    rw [if_neg hn]

theorem merge_forward_join (pre rest : List MemoryBlock) (cur n : MemoryBlock)
    (hn : n.is_free = true) :
    merge_forward pre cur (n :: rest) = pre ++ join cur n :: rest := by
  show (if n.is_free = true then _ else _) = _
  rw [if_pos hn]

theorem merge_forward_length (pre post : List MemoryBlock) (cur : MemoryBlock) :
    (merge_forward pre cur post).length = pre.length + 1 + post.length ∨
    (merge_forward pre cur post).length + 1 = pre.length + 1 + post.length := by
  cases post with
  | nil => left; simp [merge_forward]
  | cons n rest =>
    cases hn : n.is_free with
    | true =>
      right
      rw [merge_forward_join _ _ _ _ hn]
      simp only [List.length_append, List.length_cons]
      omega
    | false =>
      left
      rw [merge_forward_keep _ _ _ (by intro x hx; simp at hx; rw [← hx]; exact hn)]
      simp only [List.length_append, List.length_cons]
      omega

theorem coalesce_back_keep (pre post : List MemoryBlock) (c : MemoryBlock)
    (h : ∀ p ∈ pre.getLast?, p.is_free = false) :
    coalesce pre c post = merge_forward pre { c with is_free := true } post := by
  unfold coalesce
  cases hlast : pre.getLast? with
  | none => rfl
  | some p =>
    have hp : p.is_free = false := h p (by rw [hlast]; rfl)
    simp only [hp, Bool.false_eq_true, if_false]

theorem coalesce_back_join (pre1 post : List MemoryBlock) (p c : MemoryBlock)
    (hp : p.is_free = true) :
    coalesce (pre1 ++ [p]) c post =
      merge_forward pre1 (join p { c with is_free := true }) post := by
  simp only [coalesce, List.getLast?_concat, hp, if_true, List.dropLast_concat]

/-- C12 (Coalescing postcondition of free). For every block list (with or
without adjacent free blocks), when `free_memory(start_addr)` reaches the
allocated block `c` standing between `pre` and `post`, it succeeds and the
chain after the call is the chain before it with `c` and each of its two
immediate neighbours that was free replaced by one free block: its address is
the address of the first replaced block and its size is the sum of the
replaced sizes plus one `BLOCK_SIZE` per absorbed block, as a `size_t` value
(the exact sum whenever that is below `SIZE_MOD`); all other blocks keep their
place and content, and the chain loses 0, 1 or 2 blocks. -/
theorem free_memory_coalesces (head : List MemoryBlock) (start_addr : Nat)
    (pre post : List MemoryBlock) (c : MemoryBlock)
    (hhead : head = pre ++ c :: post)
    (hpre : ∀ b ∈ pre, b.start_addr ≠ start_addr)
    (hc : c.start_addr = start_addr) (hfree : c.is_free = false) :
    (free_memory head start_addr).1 = FreeResult.freed ∧
    ((∀ p ∈ pre.getLast?, p.is_free = false) → (∀ n ∈ post.head?, n.is_free = false) →
      (free_memory head start_addr).2 =
        pre ++ { start_addr := c.start_addr, size := c.size, is_free := true } :: post) ∧
    (∀ (pre1 : List MemoryBlock) (p : MemoryBlock), pre = pre1 ++ [p] →
      p.is_free = true → (∀ n ∈ post.head?, n.is_free = false) →
      (free_memory head start_addr).2 =
        pre1 ++ { start_addr := p.start_addr
                  size := (p.size + c.size + BLOCK_SIZE) % SIZE_MOD
                  is_free := true } :: post) ∧
    (∀ (n : MemoryBlock) (post1 : List MemoryBlock), post = n :: post1 →
      n.is_free = true → (∀ p ∈ pre.getLast?, p.is_free = false) →
      (free_memory head start_addr).2 =
        pre ++ { start_addr := c.start_addr
                 size := (c.size + n.size + BLOCK_SIZE) % SIZE_MOD
                 is_free := true } :: post1) ∧
    (∀ (pre1 : List MemoryBlock) (p n : MemoryBlock) (post1 : List MemoryBlock),
      pre = pre1 ++ [p] → post = n :: post1 → p.is_free = true → n.is_free = true →
      (free_memory head start_addr).2 =
        pre1 ++ { start_addr := p.start_addr
                  size := (p.size + c.size + n.size + 2 * BLOCK_SIZE) % SIZE_MOD
                  is_free := true } :: post1) ∧
    ((free_memory head start_addr).2.length = head.length ∨
      (free_memory head start_addr).2.length + 1 = head.length ∨
      (free_memory head start_addr).2.length + 2 = head.length) := by
  have hres := free_memory_mid start_addr pre post c hpre hc hfree
  rw [hhead, hres]
  refine ⟨rfl, ?_, ?_, ?_, ?_, ?_⟩
  · intro hp hn
    show coalesce pre c post = _
    rw [coalesce_back_keep pre post c hp, merge_forward_keep _ _ _ hn]
  · intro pre1 p hcat hp hn
    show coalesce pre c post = _
    rw [hcat, coalesce_back_join pre1 post p c hp, merge_forward_keep _ _ _ hn]
    simp only [join, addU_addU, hp]
  · intro n post1 hcat hn hp
    show coalesce pre c post = _
    rw [coalesce_back_keep pre post c hp, hcat, merge_forward_join _ _ _ _ hn]
    simp only [join, addU_addU]
  · intro pre1 p n post1 hpcat hncat hp hn
    show coalesce pre c post = _
    rw [hpcat, hncat, coalesce_back_join pre1 _ p c hp, merge_forward_join _ _ _ _ hn]
    simp only [join, addU_addU, hp]
    have hsize : ((p.size + c.size + BLOCK_SIZE) % SIZE_MOD + n.size + BLOCK_SIZE) % SIZE_MOD =
        (p.size + c.size + n.size + 2 * BLOCK_SIZE) % SIZE_MOD := by
      rw [Nat.add_assoc ((p.size + c.size + BLOCK_SIZE) % SIZE_MOD), Nat.mod_add_mod]
      congr 1
      omega
    rw [hsize]
  · show (coalesce pre c post).length = _ ∨ (coalesce pre c post).length + 1 = _ ∨
      (coalesce pre c post).length + 2 = _
    have htotal : (pre ++ c :: post).length = pre.length + 1 + post.length := by
      simp only [List.length_append, List.length_cons]
      omega
    rcases List.eq_nil_or_concat pre with hnil | ⟨pre1, p, hcat⟩
    · subst hnil
      rw [coalesce_back_keep [] post c (by intro p hp; simp at hp)]
      have := merge_forward_length [] post { c with is_free := true }
      simp only [List.length_nil] at this htotal
      omega
    · rw [List.concat_eq_append] at hcat
      subst hcat
      have hlen : (pre1 ++ [p]).length = pre1.length + 1 := by simp
      cases hp : p.is_free with
      | true =>
        rw [coalesce_back_join pre1 post p c hp]
        have := merge_forward_length pre1 post (join p { c with is_free := true })
        omega
      | false =>
        rw [coalesce_back_keep (pre1 ++ [p]) post c
          (by intro x hx; simp at hx; rw [← hx]; exact hp)]
        have := merge_forward_length (pre1 ++ [p]) post { c with is_free := true }
        omega

/-- Witness for C12: after `allocate_memory(100, 1)`, `allocate_memory(50, 2)`
and `free_memory(0)` the block at address 100 stands between two free blocks;
`free_memory(100)` replaces the three by one free block of size
`100 + 50 + 487 + 2`. -/
theorem free_memory_coalesces_witness :
    (free_memory (run_calls [Call.allocate 100 1, Call.allocate 50 2, Call.free 0]) 100).1 =
      FreeResult.freed ∧
    (free_memory (run_calls [Call.allocate 100 1, Call.allocate 50 2, Call.free 0]) 100).2 =
      [] ++ { start_addr := 0
              size := (100 + 50 + 487 + 2 * BLOCK_SIZE) % SIZE_MOD
              is_free := true } :: [] :=
  ⟨(free_memory_coalesces
      (run_calls [Call.allocate 100 1, Call.allocate 50 2, Call.free 0]) 100
      [{ start_addr := 0, size := 100, is_free := true }] [{ start_addr := 150, size := 487, is_free := true }]
      { start_addr := 100, size := 50, is_free := false }
      (by decide) (by decide) rfl rfl).1,
   (free_memory_coalesces
      (run_calls [Call.allocate 100 1, Call.allocate 50 2, Call.free 0]) 100
      [{ start_addr := 0, size := 100, is_free := true }] [{ start_addr := 150, size := 487, is_free := true }]
      { start_addr := 100, size := 50, is_free := false }
      (by decide) (by decide) rfl rfl).2.2.2.2.1 []
      { start_addr := 0, size := 100, is_free := true }
      { start_addr := 150, size := 487, is_free := true } [] rfl rfl rfl rfl⟩

/-! ## Statistics -/

theorem size_mod_eq : SIZE_MOD = 18446744073709551616 := by
  norm_num [SIZE_MOD]

theorem subU_add_mod (a b : Nat) : (subU a b + b) % SIZE_MOD = a % SIZE_MOD := by
  unfold subU
  simp only [size_mod_eq]
  omega

theorem size_sum_cons (b : MemoryBlock) (l : List MemoryBlock) :
    size_sum (b :: l) = b.size + size_sum l := by
  simp [size_sum]

theorem free_add_used (l : List MemoryBlock) :
    free_size_sum l + used_size_sum l = size_sum l := by
  induction l with
  | nil => rfl
  | cons b rest ih =>
    rw [size_sum_cons, ← ih]
    cases hb : b.is_free <;> simp [free_size_sum, used_size_sum, hb] <;> omega

theorem size_sum_add_length (l : List MemoryBlock) :
    size_sum l + l.length * BLOCK_SIZE = pool_sum l := by
  induction l with
  | nil => rfl
  | cons b rest ih =>
    rw [size_sum_cons, pool_sum_cons, ← ih, List.length_cons]
    simp only [BLOCK_SIZE]
    omega

theorem loop_total_available (l : List MemoryBlock) :
    ∀ s : Stats, (print_stats_loop l s).total_available % SIZE_MOD =
      (s.total_available + size_sum l) % SIZE_MOD := by
  induction l with
  | nil => intro s; rfl
  | cons c rest ih =>
    intro s
    rw [print_stats_loop, ih, size_sum_cons]
    show (addU s.total_available c.size + size_sum rest) % SIZE_MOD = _
    unfold addU
    rw [Nat.mod_add_mod, Nat.add_assoc]

theorem loop_total_metadata (l : List MemoryBlock) :
    ∀ s : Stats, (print_stats_loop l s).total_metadata % SIZE_MOD =
      (s.total_metadata + l.length * BLOCK_SIZE) % SIZE_MOD := by
  induction l with
  | nil => intro s; rfl
  | cons c rest ih =>
    intro s
    rw [print_stats_loop, ih, List.length_cons]
    show (addU s.total_metadata BLOCK_SIZE + rest.length * BLOCK_SIZE) % SIZE_MOD = _
    unfold addU
    rw [Nat.mod_add_mod]
    congr 1
    simp only [BLOCK_SIZE]
    omega

theorem loop_total_free (l : List MemoryBlock) :
    ∀ s : Stats, (print_stats_loop l s).total_free % SIZE_MOD =
      (s.total_free + free_size_sum l) % SIZE_MOD := by
  induction l with
  | nil => intro s; rfl
  | cons c rest ih =>
    intro s
    rw [print_stats_loop, ih]
    cases hc : c.is_free with
    | true =>
      show (addU s.total_free c.size + free_size_sum rest) % SIZE_MOD = _
      unfold addU
      rw [Nat.mod_add_mod]
      simp [free_size_sum, hc, Nat.add_assoc]
    | false =>
      show (s.total_free + free_size_sum rest) % SIZE_MOD = _
      simp [free_size_sum, hc]

theorem loop_total_used (l : List MemoryBlock) :
    ∀ s : Stats, (print_stats_loop l s).total_used % SIZE_MOD =
      (s.total_used + used_size_sum l) % SIZE_MOD := by
  induction l with
  | nil => intro s; rfl
  | cons c rest ih =>
    intro s
    rw [print_stats_loop, ih]
    cases hc : c.is_free with
    | true =>
      show (s.total_used + used_size_sum rest) % SIZE_MOD = _
      simp [used_size_sum, hc]
    | false =>
      show (addU s.total_used c.size + used_size_sum rest) % SIZE_MOD = _
      unfold addU
      rw [Nat.mod_add_mod]
      simp [used_size_sum, hc, Nat.add_assoc]

theorem loop_lt (l : List MemoryBlock) :
    ∀ s : Stats, s.total_free < SIZE_MOD → s.total_used < SIZE_MOD →
      s.total_metadata < SIZE_MOD → s.total_available < SIZE_MOD →
      (print_stats_loop l s).total_free < SIZE_MOD ∧
      (print_stats_loop l s).total_used < SIZE_MOD ∧
      (print_stats_loop l s).total_metadata < SIZE_MOD ∧
      (print_stats_loop l s).total_available < SIZE_MOD := by
  have hpos : 0 < SIZE_MOD := by rw [size_mod_eq]; omega
  induction l with
  | nil => intro s h1 h2 h3 h4; exact ⟨h1, h2, h3, h4⟩
  | cons c rest ih =>
    intro s h1 h2 h3 h4
    rw [print_stats_loop]
    apply ih
    · show (if c.is_free = true then addU s.total_free c.size else s.total_free) < SIZE_MOD
      split
      · exact Nat.mod_lt _ hpos
      · exact h1
    · show (if c.is_free = true then s.total_used else addU s.total_used c.size) < SIZE_MOD
      split
      · exact h2
      · exact Nat.mod_lt _ hpos
    · exact Nat.mod_lt _ hpos
    · exact Nat.mod_lt _ hpos

theorem print_stats_totals (head : List MemoryBlock) :
    (print_stats head).1.total_free = free_size_sum head % SIZE_MOD ∧
    (print_stats head).1.total_used = used_size_sum head % SIZE_MOD ∧
    (print_stats head).1.total_metadata = (head.length * BLOCK_SIZE) % SIZE_MOD ∧
    (print_stats head).1.total_available = size_sum head % SIZE_MOD := by
  have hpos : 0 < SIZE_MOD := by rw [size_mod_eq]; omega
  obtain ⟨h1, h2, h3, h4⟩ := loop_lt head ⟨0, 0, 0, 0⟩ hpos hpos hpos hpos
  have e1 := loop_total_free head ⟨0, 0, 0, 0⟩
  have e2 := loop_total_used head ⟨0, 0, 0, 0⟩
  have e3 := loop_total_metadata head ⟨0, 0, 0, 0⟩
  have e4 := loop_total_available head ⟨0, 0, 0, 0⟩
  rw [Nat.mod_eq_of_lt h1] at e1
  rw [Nat.mod_eq_of_lt h2] at e2
  rw [Nat.mod_eq_of_lt h3] at e3
  rw [Nat.mod_eq_of_lt h4] at e4
  simp only [Nat.zero_add] at e1 e2 e3 e4
  exact ⟨e1, e2, e3, e4⟩

/-! ## Conservation modulo `SIZE_MOD` -/

theorem pool_sum_alloc_blocks_mod (t : MemoryBlock) (size : Nat) :
    pool_sum (alloc_blocks t size) % SIZE_MOD = (t.size + BLOCK_SIZE) % SIZE_MOD := by
  unfold alloc_blocks
  by_cases hsplit : subU (subU t.size size) BLOCK_SIZE > BLOCK_SIZE
  · rw [if_pos hsplit]
    simp only [pool_sum_cons, pool_sum_nil]
    have h1 := subU_add_mod (subU t.size size) BLOCK_SIZE
    have h2 := subU_add_mod t.size size
    simp only [size_mod_eq] at h1 h2 ⊢
    omega
  · rw [if_neg hsplit]
    simp only [pool_sum_cons, pool_sum_nil, Nat.add_zero]

theorem join_size_mod (a b : MemoryBlock) :
    ((join a b).size + BLOCK_SIZE) % SIZE_MOD =
      (a.size + BLOCK_SIZE + (b.size + BLOCK_SIZE)) % SIZE_MOD := by
  show (addU (addU a.size b.size) BLOCK_SIZE + BLOCK_SIZE) % SIZE_MOD = _
  rw [addU_addU, Nat.mod_add_mod]
  congr 1
  omega

theorem pool_sum_merge_forward_mod (pre post : List MemoryBlock) (cur : MemoryBlock) :
    pool_sum (merge_forward pre cur post) % SIZE_MOD =
      pool_sum (pre ++ cur :: post) % SIZE_MOD := by
  cases post with
  | nil => rfl
  | cons n rest =>
    cases hn : n.is_free with
    | true =>
      rw [merge_forward_join _ _ _ _ hn]
      simp only [pool_sum_append, pool_sum_cons]
      have h := join_size_mod cur n
      simp only [size_mod_eq] at h ⊢
      omega
    | false =>
      rw [merge_forward_keep _ _ _ (by intro x hx; simp at hx; rw [← hx]; exact hn)]

theorem pool_sum_coalesce_mod (pre post : List MemoryBlock) (c : MemoryBlock) :
    pool_sum (coalesce pre c post) % SIZE_MOD = pool_sum (pre ++ c :: post) % SIZE_MOD := by
  have hc1 : pool_sum (pre ++ { c with is_free := true } :: post) =
      pool_sum (pre ++ c :: post) := by
    simp only [pool_sum_append, pool_sum_cons]
  rcases List.eq_nil_or_concat pre with hnil | ⟨pre1, p, hcat⟩
  · subst hnil
    rw [coalesce_back_keep [] post c (by intro p hp; simp at hp),
      pool_sum_merge_forward_mod, hc1]
  · rw [List.concat_eq_append] at hcat
    subst hcat
    cases hp : p.is_free with
    | true =>
      rw [coalesce_back_join pre1 post p c hp, pool_sum_merge_forward_mod]
      simp only [pool_sum_append, pool_sum_cons, pool_sum_nil]
      have h := join_size_mod p { c with is_free := true }
      simp only [size_mod_eq] at h ⊢
      omega
    | false =>
      rw [coalesce_back_keep (pre1 ++ [p]) post c
        (by intro x hx; simp at hx; rw [← hx]; exact hp),
        pool_sum_merge_forward_mod, hc1]

theorem pool_sum_apply_call_mod (head : List MemoryBlock) (call : Call) :
    pool_sum (apply_call head call) % SIZE_MOD = pool_sum head % SIZE_MOD := by
  cases call with
  | allocate size algorithm =>
    show pool_sum (allocate_memory head size algorithm).head % SIZE_MOD = _
    rcases allocate_memory_shape head size algorithm with
      ⟨hfail, _⟩ | ⟨pre, t, post, hhead, _, _, _, hres⟩
    · rw [hfail]
    · rw [hres, hhead]
      simp only [pool_sum_append, pool_sum_cons]
      have h := pool_sum_alloc_blocks_mod t size
      simp only [size_mod_eq] at h ⊢
      omega
  | free a =>
    show pool_sum (free_memory head a).2 % SIZE_MOD = _
    rcases free_memory_shape head a with
      ⟨hres, _⟩ | ⟨pre, c, post, hhead, _, _, ⟨_, hres⟩ | ⟨_, hres⟩⟩
    · rw [hres]
    · rw [hres]
    · rw [hres, hhead]
      exact pool_sum_coalesce_mod pre post c

theorem pool_sum_foldl_mod (calls : List Call) :
    ∀ head, pool_sum (calls.foldl apply_call head) % SIZE_MOD = pool_sum head % SIZE_MOD := by
  induction calls with
  | nil => intro head; rfl
  | cons call rest ih =>
    intro head
    rw [List.foldl_cons, ih, pool_sum_apply_call_mod]

theorem reachable_pool_sum_mod (head : List MemoryBlock) (h : Reachable head) :
    pool_sum head % SIZE_MOD = MEMORY_SIZE := by
  obtain ⟨calls, _, hrun⟩ := h
  rw [← hrun]
  unfold run_calls
  rw [pool_sum_foldl_mod]
  decide

theorem positive_merge_forward (pre post : List MemoryBlock) (cur : MemoryBlock)
    (hpre : ∀ b ∈ pre, 1 ≤ b.size) (hcur : 1 ≤ cur.size) (hpost : ∀ b ∈ post, 1 ≤ b.size)
    (hsum : pool_sum (pre ++ cur :: post) < SIZE_MOD) :
    ∀ b ∈ merge_forward pre cur post, 1 ≤ b.size := by
  cases post with
  | nil =>
    intro b hb
    rcases List.mem_append.mp hb with hb | hb
    · exact hpre b hb
    · rw [List.mem_singleton.mp hb]
      exact hcur
  | cons n rest =>
    cases hn : n.is_free with
    | true =>
      rw [merge_forward_join _ _ _ _ hn]
      simp only [pool_sum_append, pool_sum_cons] at hsum
      have hjoin := join_size cur n (by omega)
      intro b hb
      rcases List.mem_append.mp hb with hb | hb
      · exact hpre b hb
      · rcases List.mem_cons.mp hb with hb | hb
        · rw [hb, hjoin]
          omega
        · exact hpost b (List.mem_cons_of_mem n hb)
    | false =>
      rw [merge_forward_keep _ _ _ (by intro x hx; simp at hx; rw [← hx]; exact hn)]
      intro b hb
      rcases List.mem_append.mp hb with hb | hb
      · exact hpre b hb
      · rcases List.mem_cons.mp hb with hb | hb
        · rw [hb]
          exact hcur
        · exact hpost b hb

theorem positive_coalesce (pre post : List MemoryBlock) (c : MemoryBlock)
    (hpos : ∀ b ∈ pre ++ c :: post, 1 ≤ b.size)
    (hsum : pool_sum (pre ++ c :: post) < SIZE_MOD) :
    ∀ b ∈ coalesce pre c post, 1 ≤ b.size := by
  have hpre : ∀ b ∈ pre, 1 ≤ b.size := fun b hb => hpos b (List.mem_append_left _ hb)
  have hc : 1 ≤ c.size := hpos c (by simp)
  have hpost : ∀ b ∈ post, 1 ≤ b.size :=
    fun b hb => hpos b (List.mem_append_right _ (List.mem_cons_of_mem c hb))
  have hc1 : pool_sum (pre ++ { c with is_free := true } :: post) =
      pool_sum (pre ++ c :: post) := by
    simp only [pool_sum_append, pool_sum_cons]
  rcases List.eq_nil_or_concat pre with hnil | ⟨pre1, p, hcat⟩
  · subst hnil
    rw [coalesce_back_keep [] post c (by intro p hp; simp at hp)]
    exact positive_merge_forward [] post _ hpre hc hpost (by rw [hc1]; exact hsum)
  · rw [List.concat_eq_append] at hcat
    subst hcat
    cases hp : p.is_free with
    | true =>
      rw [coalesce_back_join pre1 post p c hp]
      have hbound := hsum
      simp only [pool_sum_append, pool_sum_cons, pool_sum_nil] at hbound
      have hjoin := join_size p { c with is_free := true } (by simp only []; omega)
      simp only [] at hjoin
      apply positive_merge_forward pre1 post _
        (fun b hb => hpre b (List.mem_append_left _ hb)) (by rw [hjoin]; omega) hpost
      simp only [pool_sum_append, pool_sum_cons, hjoin]
      omega
    | false =>
      rw [coalesce_back_keep (pre1 ++ [p]) post c
        (by intro x hx; simp at hx; rw [← hx]; exact hp)]
      exact positive_merge_forward (pre1 ++ [p]) post _ hpre hc hpost
        (by rw [hc1]; exact hsum)

theorem positive_apply_call (head : List MemoryBlock) (call : Call)
    (hsum : pool_sum head < SIZE_MOD) (hpos : ∀ b ∈ head, 1 ≤ b.size) :
    ∀ b ∈ apply_call head call, 1 ≤ b.size := by
  cases call with
  | allocate size algorithm =>
    show ∀ b ∈ (allocate_memory head size algorithm).head, 1 ≤ b.size
    rcases allocate_memory_shape head size algorithm with
      ⟨hfail, _⟩ | ⟨pre, t, post, hhead, _, hsize, _, hres⟩
    · rw [hfail]
      exact hpos
    · rw [hres]
      rw [hhead] at hpos
      intro b hb
      rcases List.mem_append.mp hb with hb | hb
      · rcases List.mem_append.mp hb with hb | hb
        · exact hpos b (List.mem_append_left _ hb)
        · unfold alloc_blocks at hb
          by_cases hsplit : subU (subU t.size size) BLOCK_SIZE > BLOCK_SIZE
          · rw [if_pos hsplit] at hb
            simp only [List.mem_cons, List.mem_singleton, List.not_mem_nil, or_false] at hb
            rcases hb with hb | hb
            · rw [hb]
              exact hsize
            · rw [hb]
              simp only [BLOCK_SIZE] at hsplit ⊢
              omega
          · rw [if_neg hsplit] at hb
            rw [List.mem_singleton.mp hb]
            exact hpos t (by simp)
      · exact hpos b (List.mem_append_right _ (List.mem_cons_of_mem t hb))
  | free a =>
    show ∀ b ∈ (free_memory head a).2, 1 ≤ b.size
    rcases free_memory_shape head a with
      ⟨hres, _⟩ | ⟨pre, c, post, hhead, _, _, ⟨_, hres⟩ | ⟨_, hres⟩⟩
    · rw [hres]
      exact hpos
    · rw [hres]
      exact hpos
    · rw [hres]
      rw [hhead] at hpos hsum
      exact positive_coalesce pre post c hpos hsum

theorem positive_foldl (calls : List Call) :
    ∀ head, calls.all Call.below_max = true → pool_sum head = MEMORY_SIZE →
      (∀ b ∈ head, 1 ≤ b.size) → ∀ b ∈ calls.foldl apply_call head, 1 ≤ b.size := by
  induction calls with
  | nil => intro head _ _ h; exact h
  | cons call rest ih =>
    intro head hall hsum hpos
    simp only [List.all_cons, Bool.and_eq_true] at hall
    have hsmall : MEMORY_SIZE < SIZE_MOD := by decide
    exact ih _ hall.2 (pool_sum_apply_call head call hall.1 hsum)
      (positive_apply_call head call (by omega) hpos)

/-- Positive sizes for every sequence of calls in which no request is
`SIZE_MAX`: every block of the chain has size at least 1. -/
theorem sizes_positive_below_size_max (calls : List Call)
    (hbelow : calls.all Call.below_max = true) :
    ∀ b ∈ run_calls calls, 1 ≤ b.size :=
  positive_foldl calls initialize_memory hbelow (by decide) (by decide)

/-- Witness for `sizes_positive_below_size_max`: the calls of `order_calls`. -/
theorem sizes_positive_below_size_max_witness :
    order_calls.all Call.below_max = true ∧ ∀ b ∈ run_calls order_calls, 1 ≤ b.size :=
  ⟨by decide, sizes_positive_below_size_max order_calls (by decide)⟩

/-- Release of an allocated block whose start address no other block of the
chain carries: `free_memory` reaches that very block and releases it. -/
theorem allocated_block_released_of_nodup (pre post : List MemoryBlock) (b : MemoryBlock)
    (hnodup : ((pre ++ b :: post).map MemoryBlock.start_addr).Nodup)
    (hb : b.is_free = false) :
    free_memory (pre ++ b :: post) b.start_addr = (FreeResult.freed, coalesce pre b post) := by
  apply free_memory_mid b.start_addr pre post b _ rfl hb
  intro x hx heq
  rw [List.map_append, List.map_cons, List.nodup_append] at hnodup
  obtain ⟨_, _, hdisj⟩ := hnodup
  have hx1 : x.start_addr ∈ pre.map MemoryBlock.start_addr := List.mem_map_of_mem _ hx
  have hb1 : x.start_addr ∈ b.start_addr :: post.map MemoryBlock.start_addr := by
    rw [heq]
    exact List.mem_cons_self _ _
  exact hdisj hx1 hb1

/-- Witness for `allocated_block_released_of_nodup`: the block at address 0
after `allocate_memory(100, 1)`. -/
theorem allocated_block_released_of_nodup_witness :
    free_memory ([] ++ { start_addr := 0, size := 100, is_free := false } ::
        [{ start_addr := 100, size := 538, is_free := true }]) 0 =
      (FreeResult.freed,
        coalesce [] { start_addr := 0, size := 100, is_free := false }
          [{ start_addr := 100, size := 538, is_free := true }]) :=
  allocated_block_released_of_nodup [] [{ start_addr := 100, size := 538, is_free := true }]
    { start_addr := 0, size := 100, is_free := false } (by decide) rfl

/-! ## Further evaluations of the code where it departs from the specification -/

/-- C18 (Every allocation can be released), evaluated in the reachable state
after `order_calls`: the block at position 2 is allocated and has start
address 4, but `free_memory(4)` stops at the free block at position 1, which
carries the same address, reports a double free and leaves the chain as it
was, so the allocated block is not released. -/
theorem allocated_block_not_released :
    Reachable (run_calls order_calls) ∧
    (run_calls order_calls)[1]? = some { start_addr := 4, size := 2, is_free := true } ∧
    (run_calls order_calls)[2]? = some { start_addr := 4, size := 1, is_free := false } ∧
    free_memory (run_calls order_calls) 4 =
      (FreeResult.already_free, run_calls order_calls) :=
  ⟨⟨_, by decide, rfl⟩, by decide, by decide, by decide⟩

/-! ## Linked records: a result does not depend on the fuel -/

theorem linked_first_fit_fuel (pool : List (Nat × Linked.Node)) (size : Nat) :
    ∀ (fuel : Nat) (current : Option Nat) (r : Option Nat × List (Nat × Linked.Node)),
      Linked.allocate_first_fit pool size fuel current = some r →
      Linked.allocate_first_fit pool size (fuel + 1) current = some r := by
  intro fuel
  induction fuel with
  | zero => intro current r h; exact Option.noConfusion h
  | succ n ih =>
    intro current r h
    cases current with
    | none => exact h
    | some p =>
      by_cases hfit : Linked.node_fits (Linked.read pool p) size = true
      · simp only [Linked.allocate_first_fit, hfit, if_true] at h ⊢
        exact h
      · simp only [Linked.allocate_first_fit, hfit, if_false] at h
        have := ih _ r h
        rw [Linked.allocate_first_fit, if_neg hfit]
        exact this

theorem linked_best_fit_fuel (pool : List (Nat × Linked.Node)) (size : Nat) :
    ∀ (fuel : Nat) (current best r : Option Nat),
      Linked.allocate_best_fit pool size fuel current best = some r →
      Linked.allocate_best_fit pool size (fuel + 1) current best = some r := by
  intro fuel
  induction fuel with
  | zero => intro current best r h; exact Option.noConfusion h
  | succ n ih =>
    intro current best r h
    cases current with
    | none => exact h
    | some p =>
      simp only [Linked.allocate_best_fit] at h ⊢
      exact ih _ _ r h

theorem linked_worst_fit_fuel (pool : List (Nat × Linked.Node)) (size : Nat) :
    ∀ (fuel : Nat) (current worst r : Option Nat),
      Linked.allocate_worst_fit pool size fuel current worst = some r →
      Linked.allocate_worst_fit pool size (fuel + 1) current worst = some r := by
  intro fuel
  induction fuel with
  | zero => intro current worst r h; exact Option.noConfusion h
  | succ n ih =>
    intro current worst r h
    cases current with
    | none => exact h
    | some p =>
      simp only [Linked.allocate_worst_fit] at h ⊢
      exact ih _ _ r h

theorem linked_find_block_fuel (pool : List (Nat × Linked.Node)) (start_addr : Nat) :
    ∀ (fuel : Nat) (current prev : Option Nat) (r : Option Nat × Option Nat),
      Linked.find_block pool start_addr fuel current prev = some r →
      Linked.find_block pool start_addr (fuel + 1) current prev = some r := by
  intro fuel
  induction fuel with
  | zero => intro current prev r h; exact Option.noConfusion h
  | succ n ih =>
    intro current prev r h
    cases current with
    | none => exact h
    | some p =>
      by_cases hne : (Linked.read pool p).start_addr ≠ start_addr
      · rw [Linked.find_block, if_pos hne] at h ⊢
        exact ih _ _ r h
      · rw [Linked.find_block, if_neg hne] at h ⊢
        exact h

theorem linked_select_target_fuel (fuel : Nat) (c : Linked.Chain) (size : Nat)
    (algorithm : Int) (r : Option Nat × List (Nat × Linked.Node))
    (h : Linked.select_target fuel c size algorithm = some r) :
    Linked.select_target (fuel + 1) c size algorithm = some r := by
  unfold Linked.select_target at h ⊢
  by_cases h1 : algorithm = 1
  · rw [if_pos h1] at h ⊢
    exact linked_first_fit_fuel c.pool size fuel c.head r h
  · rw [if_neg h1] at h ⊢
    by_cases h2 : algorithm = 2
    · rw [if_pos h2] at h ⊢
      cases hb : Linked.allocate_best_fit c.pool size fuel c.head none with
      | none => rw [hb] at h; exact Option.noConfusion h
      | some t =>
        rw [hb] at h
        rw [linked_best_fit_fuel c.pool size fuel c.head none t hb]
        exact h
    · rw [if_neg h2] at h ⊢
      by_cases h3 : algorithm = 3
      · rw [if_pos h3] at h ⊢
        cases hw : Linked.allocate_worst_fit c.pool size fuel c.head none with
        | none => rw [hw] at h; exact Option.noConfusion h
        | some t =>
          rw [hw] at h
          rw [linked_worst_fit_fuel c.pool size fuel c.head none t hw]
          exact h
      · rw [if_neg h3] at h ⊢
        exact h

theorem linked_allocate_memory_fuel (fuel : Nat) (c : Linked.Chain) (size : Nat)
    (algorithm : Int) (r : Int × Linked.Chain)
    (h : Linked.allocate_memory fuel c size algorithm = some r) :
    Linked.allocate_memory (fuel + 1) c size algorithm = some r := by
  unfold Linked.allocate_memory at h ⊢
  by_cases hsz : size ≤ 0
  · rw [if_pos hsz] at h ⊢
    exact h
  · rw [if_neg hsz] at h ⊢
    cases hsel : Linked.select_target fuel c size algorithm with
    | none => rw [hsel] at h; exact Option.noConfusion h
    | some t =>
      rw [hsel] at h
      rw [linked_select_target_fuel fuel c size algorithm t hsel]
      exact h

theorem linked_free_memory_fuel (fuel : Nat) (c : Linked.Chain) (start_addr : Nat)
    (r : FreeResult × Linked.Chain)
    (h : Linked.free_memory fuel c start_addr = some r) :
    Linked.free_memory (fuel + 1) c start_addr = some r := by
  unfold Linked.free_memory at h ⊢
  cases hfind : Linked.find_block c.pool start_addr fuel c.head none with
  | none => rw [hfind] at h; exact Option.noConfusion h
  | some t =>
    rw [hfind] at h
    rw [linked_find_block_fuel c.pool start_addr fuel c.head none t hfind]
    exact h

theorem linked_apply_call_fuel (fuel : Nat) (c : Linked.Chain) (call : Call)
    (r : Linked.Chain) (h : Linked.apply_call fuel c call = some r) :
    Linked.apply_call (fuel + 1) c call = some r := by
  cases call with
  | allocate size algorithm =>
    change (Linked.allocate_memory fuel c size algorithm).map Prod.snd = some r at h
    show (Linked.allocate_memory (fuel + 1) c size algorithm).map Prod.snd = some r
    cases ha : Linked.allocate_memory fuel c size algorithm with
    | none => rw [ha] at h; exact Option.noConfusion h
    | some t =>
      rw [ha] at h
      rw [linked_allocate_memory_fuel fuel c size algorithm t ha]
      exact h
  | free start_addr =>
    change (Linked.free_memory fuel c start_addr).map Prod.snd = some r at h
    show (Linked.free_memory (fuel + 1) c start_addr).map Prod.snd = some r
    cases hf : Linked.free_memory fuel c start_addr with
    | none => rw [hf] at h; exact Option.noConfusion h
    | some t =>
      rw [hf] at h
      rw [linked_free_memory_fuel fuel c start_addr t hf]
      exact h

theorem linked_run_fuel_succ (fuel : Nat) (calls : List Call) :
    ∀ (c r : Linked.Chain), Linked.run fuel calls c = some r →
      Linked.run (fuel + 1) calls c = some r := by
  induction calls with
  | nil => intro c r h; exact h
  | cons call rest ih =>
    intro c r h
    rw [Linked.run] at h ⊢
    cases hc : Linked.apply_call fuel c call with
    | none => rw [hc] at h; exact Option.noConfusion h
    | some c1 =>
      rw [hc] at h
      rw [linked_apply_call_fuel fuel c call c1 hc]
      exact ih c1 r h

theorem linked_run_fuel (fuel : Nat) (calls : List Call) (c r : Linked.Chain)
    (h : Linked.run fuel calls c = some r) :
    ∀ k, Linked.run (fuel + k) calls c = some r := by
  intro k
  induction k with
  | zero => exact h
  | succ k ih => exact linked_run_fuel_succ (fuel + k) calls c r ih

/-! ## Linked records and the chain as a list -/

/-- On the calls of `order_calls`, of `shadow_calls` and of the scenario, where
`split_MemoryBlock` always writes a record of its own, the linked records
form the chain that the list embedding computes. -/
theorem linked_chain_agrees :
    (Linked.run 16 order_calls Linked.initialize_memory).map
        (fun c => Linked.blocks c.pool 16 c.head) = some (run_calls order_calls) ∧
    (Linked.run 16 shadow_calls Linked.initialize_memory).map
        (fun c => Linked.blocks c.pool 16 c.head) = some (run_calls shadow_calls) ∧
    (Linked.run 16 [Call.allocate 100 1, Call.allocate 50 2, Call.free 0]
        Linked.initialize_memory).map (fun c => Linked.blocks c.pool 16 c.head) =
      some (run_calls [Call.allocate 100 1, Call.allocate 50 2, Call.free 0]) :=
  ⟨by decide, by decide, by decide⟩

theorem linked_first_fit_self_loop (pool : List (Nat × Linked.Node)) (size p : Nat)
    (hfit : Linked.node_fits (Linked.read pool p) size = false)
    (hnext : (Linked.read pool p).next = some p) :
    ∀ fuel, Linked.allocate_first_fit pool size fuel (some p) = none := by
  intro fuel
  induction fuel with
  | zero => rfl
  | succ n ih =>
    rw [Linked.allocate_first_fit, hfit, hnext]
    simpa using ih

/-- After `allocate_memory(SIZE_MAX, 1)` on the initial chain the only record
is allocated and is its own successor, and a following `allocate_memory(2, 1)`
does not return, whatever the fuel. -/
theorem linked_self_loop_after_size_max :
    (Linked.run 8 [Call.allocate SIZE_MAX 1] Linked.initialize_memory).map
        (fun c => (c.head, Linked.read c.pool 0)) =
      some (some 0,
        { start_addr := SIZE_MAX, size := SIZE_MAX, is_free := false, next := some 0 }) ∧
    ∀ fuel, Linked.run fuel [Call.allocate SIZE_MAX 1, Call.allocate 2 1]
      Linked.initialize_memory = none := by
  refine ⟨by decide, ?_⟩
  intro fuel
  cases fuel with
  | zero => rfl
  | succ n =>
    have hsome : (Linked.run 1 [Call.allocate SIZE_MAX 1] Linked.initialize_memory).isSome =
        true := by decide
    obtain ⟨c1, hc1⟩ := Option.isSome_iff_exists.mp hsome
    have hhead : (Linked.run 1 [Call.allocate SIZE_MAX 1] Linked.initialize_memory).map
        (fun c => (c.head, Linked.node_fits (Linked.read c.pool 0) 2,
          (Linked.read c.pool 0).next)) = some (some 0, false, some 0) := by decide
    rw [hc1] at hhead
    simp only [Option.map_some', Option.some.injEq, Prod.mk.injEq] at hhead
    obtain ⟨hh, hfit, hnext⟩ := hhead
    have hstep : Linked.apply_call (n + 1) Linked.initialize_memory
        (Call.allocate SIZE_MAX 1) = some c1 := by
      have h1 : Linked.apply_call 1 Linked.initialize_memory (Call.allocate SIZE_MAX 1) =
          some c1 := by
        have := hc1
        simp only [Linked.run] at this
        cases ha : Linked.apply_call 1 Linked.initialize_memory (Call.allocate SIZE_MAX 1) with
        | none => rw [ha] at this; exact Option.noConfusion this
        | some c => rw [ha] at this; exact this
      have hmono : ∀ k, Linked.apply_call (1 + k) Linked.initialize_memory
          (Call.allocate SIZE_MAX 1) = some c1 := by
        intro k
        induction k with
        | zero => exact h1
        | succ k ih => exact linked_apply_call_fuel (1 + k) _ _ c1 ih
      have := hmono n
      rwa [Nat.add_comm] at this
    have hloop := linked_first_fit_self_loop c1.pool 2 0 hfit hnext (n + 1)
    have hcall : Linked.apply_call (n + 1) c1 (Call.allocate 2 1) = none := by
      show (Linked.allocate_memory (n + 1) c1 2 1).map Prod.snd = none
      have hsel : Linked.select_target (n + 1) c1 2 1 = none := by
        unfold Linked.select_target
        rw [if_pos rfl, hh]
        exact hloop
      unfold Linked.allocate_memory
      rw [if_neg (by decide), hsel]
      rfl
    simp only [Linked.run, hstep, hcall]

/-! ## Positive sizes on the linked records -/

/-- C17 (Positive sizes), evaluated on the linked records for the calls of
`zero_size_calls`, every one of which returns.  `allocate_memory(3, 1)` leaves
the records 0 and 4; `allocate_memory(SIZE_MAX, 1)` is accepted because
`size + BLOCK_SIZE` wraps to 0, and `split_MemoryBlock` writes the new record
onto the target, which becomes its own successor with size `SIZE_MAX`;
`free_memory(2)` releases it; `allocate_memory(SIZE_MAX - 3, 1)` splits it
into a block of size `SIZE_MAX - 3` and a free block of size 2 at record 1;
`allocate_memory(1, 1)` takes that block; `free_memory(2)` releases the block
of size `SIZE_MAX - 3`; `free_memory(0)` then merges it into the head block,
whose size becomes `3 + (SIZE_MAX - 3) + 1`, which wraps to 0.  The head block
of the chain has size 0, for every fuel from 8 on. -/
theorem zero_size_block_in_linked_chain :
    zero_size_calls.all Call.in_range = true ∧
    (Linked.run 8 [Call.allocate 3 1, Call.allocate SIZE_MAX 1] Linked.initialize_memory).map
        (fun c => (c.head, Linked.read c.pool 0, Linked.read c.pool 4)) =
      some (some 0,
        { start_addr := 0, size := 3, is_free := false, next := some 4 },
        { start_addr := 2, size := SIZE_MAX, is_free := false, next := some 4 }) ∧
    (Linked.run 8 [Call.allocate 3 1, Call.allocate SIZE_MAX 1, Call.free 2,
        Call.allocate (SIZE_MAX - 3) 1, Call.allocate 1 1, Call.free 2]
        Linked.initialize_memory).map
        (fun c => (c.head, Linked.read c.pool 0, Linked.read c.pool 4, Linked.read c.pool 1)) =
      some (some 0,
        { start_addr := 0, size := 3, is_free := false, next := some 4 },
        { start_addr := 2, size := SIZE_MAX - 3, is_free := true, next := some 1 },
        { start_addr := SIZE_MAX - 1, size := 2, is_free := false, next := some 4 }) ∧
    (∀ k, (Linked.run (8 + k) zero_size_calls Linked.initialize_memory).map
        (fun c => (c.head, Linked.read c.pool 0, Linked.read c.pool 4, Linked.read c.pool 1)) =
      some (some 0,
        { start_addr := 0, size := 0, is_free := true, next := some 1 },
        { start_addr := 2, size := SIZE_MAX - 3, is_free := true, next := some 1 },
        { start_addr := SIZE_MAX - 1, size := 2, is_free := false, next := some 4 })) ∧
    (∀ k, (Linked.run (8 + k) zero_size_calls Linked.initialize_memory).map
        (fun c => Linked.blocks c.pool 3 c.head) =
      some [{ start_addr := 0, size := 0, is_free := true },
            { start_addr := SIZE_MAX - 1, size := 2, is_free := false },
            { start_addr := 2, size := SIZE_MAX - 3, is_free := true }]) := by
  have hsome : (Linked.run 8 zero_size_calls Linked.initialize_memory).isSome = true := by
    decide
  obtain ⟨c0, hc0⟩ := Option.isSome_iff_exists.mp hsome
  have hrec : (Linked.run 8 zero_size_calls Linked.initialize_memory).map
      (fun c => (c.head, Linked.read c.pool 0, Linked.read c.pool 4, Linked.read c.pool 1)) =
      some (some 0,
        { start_addr := 0, size := 0, is_free := true, next := some 1 },
        { start_addr := 2, size := SIZE_MAX - 3, is_free := true, next := some 1 },
        { start_addr := SIZE_MAX - 1, size := 2, is_free := false, next := some 4 }) := by
    decide
  have hblocks : (Linked.run 8 zero_size_calls Linked.initialize_memory).map
      (fun c => Linked.blocks c.pool 3 c.head) =
      some [{ start_addr := 0, size := 0, is_free := true },
            { start_addr := SIZE_MAX - 1, size := 2, is_free := false },
            { start_addr := 2, size := SIZE_MAX - 3, is_free := true }] := by
    decide
  rw [hc0] at hrec hblocks
  refine ⟨by decide, by decide, by decide, ?_, ?_⟩
  · intro k
    rw [linked_run_fuel 8 zero_size_calls Linked.initialize_memory c0 hc0 k]
    exact hrec
  · intro k
    rw [linked_run_fuel 8 zero_size_calls Linked.initialize_memory c0 hc0 k]
    exact hblocks

end MemoryAllocator
